import Mathlib

/-!
Verification of the configuration-schema core of `sanhe_devops_tools`
(`config_lib.py`) against its natural-language specification.

The embedding is shallow: Python `Field` objects become a Lean structure,
the class-level field registry (`_declared_fields`, an `OrderedDict` of
shared, mutable `Field` objects) becomes an association list
`List (String × Field)` that is threaded explicitly through the
operations, and Python exceptions become `Except PyErr`.
-/

namespace ConfigLib

/-- JSON-style values stored in config fields.  The Python code is untyped;
this covers the shapes the library manipulates.  `PyVal.none` models the
Python `None` object. -/
inductive PyVal where
  | none
  | bool (b : Bool)
  | int (n : Int)
  | str (s : String)
  deriving DecidableEq, Repr

/-- Python exceptions raised by `config_lib.py`.
`deriableSetValueError` models `DeriableSetValueError` (sic, the source
misspells it), `dontDumpError` models `DontDumpError`, `attributeError`
models the `AttributeError` raised by an unbound `Field.get_value`,
`validationError` models an arbitrary exception raised by a user-supplied
validator, and `indexError` models the `IndexError` raised by
`word[0]` on an empty string in `to_big_camel_case`. -/
inductive PyErr where
  | deriableSetValueError (msg : String)
  | dontDumpError
  | attributeError (msg : String)
  | validationError (msg : String)
  | indexError
  deriving DecidableEq, Repr

/-- The two concrete `Field` subclasses of the source: `Constant` and
`Derivable`.  (The abstract base `Field` is never instantiated by the
library's API.) -/
inductive FieldKind where
  | constant
  | derivable
  deriving DecidableEq, Repr, BEq

/-- One config field object (`class Field` of `config_lib.py`, with the
subclass recorded in `kind`).

`value`, `dont_dump`, `printable`, `creation_index` mirror the attributes
set in `Field.__init__`; `config_object` mirrors `_config_object` (the id
of the instance the field was last bound to, `None` before any binding);
`getter_method` mirrors `_getter_method` (a user function of the owning
config object, modelled as a function of the raw field values of the
schema's shared field store); `validate_method` mirrors `_validate_method`
(a user validator that either passes, `none`, or raises an exception,
`some e`; the default validator of `Field.__init__` always passes). -/
structure Field where
  kind : FieldKind
  value : PyVal
  dont_dump : Bool
  printable : Bool
  creation_index : Nat
  config_object : Option Nat
  getter_method : Option (List (String × PyVal) → PyVal)
  validate_method : PyVal → Option PyErr

/-- `Field.__init__(value=None, default=None, dont_dump=False, printable=True)`:

```
if value is None:
    self.value = default
self.value = value
```

The second assignment overwrites the first unconditionally, so the net
stored value is always `value`.  `kind` and `creation_index` are model
parameters standing for the subclass and for the global
`Field._creation_index` counter. -/
def Field.init (kind : FieldKind) (value : PyVal) (default : PyVal)
    (dont_dump : Bool) (printable : Bool) (creation_index : Nat) : Field :=
  let afterDefault : PyVal := if value = PyVal.none then default else value
  let afterOverwrite : PyVal := value
  { kind := kind
    value := afterOverwrite
    dont_dump := dont_dump
    printable := printable
    creation_index := creation_index
    config_object := Option.none
    getter_method := Option.none
    validate_method := fun _ => Option.none }

/-- Dynamic dispatch of `set_value`: `Constant.set_value` overwrites the
value unconditionally (no type check); `Derivable` has no override, so it
inherits `Field.set_value`, which always raises
`DeriableSetValueError("Derivable.set_value method should never bee called")`. -/
def Field.set_value (f : Field) (v : PyVal) : Except PyErr Field :=
  match f.kind with
  | FieldKind.constant => Except.ok { f with value := v }
  | FieldKind.derivable =>
      Except.error (PyErr.deriableSetValueError
        "Derivable.set_value method should never bee called")

/-- The raw `value` attributes of a field store; this is what a
user-supplied getter can read off the owning config object. -/
def rawValues (store : List (String × Field)) : List (String × PyVal) :=
  store.map (fun p => (p.1, p.2.value))

/-- `Field.get_value(check_dont_dump=False, check_printable=False)`:
raises `AttributeError` when `_config_object` is still `None`;
raises `DontDumpError` when `check_dont_dump` and `dont_dump`;
returns the fixed string `"***HIDDEN***"` when `check_printable` and the
field is not printable; otherwise returns `self.value` when no getter is
bound, and `self._getter_method(self._config_object)` when one is
(the getter reads the shared field store of the owning instance). -/
def Field.get_value (store : List (String × Field)) (f : Field)
    (check_dont_dump : Bool) (check_printable : Bool) : Except PyErr PyVal :=
  if f.config_object = Option.none then
    Except.error (PyErr.attributeError
      "Field.get_value() can't be called without initialized with ")
  else if check_dont_dump && f.dont_dump then
    Except.error PyErr.dontDumpError
  else if check_printable && !f.printable then
    Except.ok (PyVal.str "***HIDDEN***")
  else
    match f.getter_method with
    | Option.none => Except.ok f.value
    | Option.some g => Except.ok (g (rawValues store))

/-- `Constant.validate(self)`:
`self._validate_method(self, self.get_value())` — the value is read with
both check flags at their `False` defaults, then handed to the validator. -/
def Constant.validate (store : List (String × Field)) (f : Field) :
    Except PyErr Unit := do
  let v ← Field.get_value store f false false
  match f.validate_method v with
  | Option.none => Except.ok ()
  | Option.some e => Except.error e

/-- `Derivable.validate(self, config_instance)`:
`self._validate_method(self, self.get_value(config_instance))`.
`get_value`'s signature is `(check_dont_dump=False, check_printable=False)`,
so the config instance is passed positionally into `check_dont_dump`; a
config object is always truthy in Python, hence the flag is effectively
`True` here. -/
def Derivable.validate (store : List (String × Field)) (f : Field) :
    Except PyErr Unit := do
  let v ← Field.get_value store f true false
  match f.validate_method v with
  | Option.none => Except.ok ()
  | Option.some e => Except.error e

/-- Key list of an association list. -/
def keys {α : Type} (l : List (String × α)) : List String :=
  l.map Prod.fst

/-- `BaseConfigClass.__init__(**kwargs)`: for every declared field in
registry order, if a same-named keyword is supplied call `set_value`
(which raises on a `Derivable`), then unconditionally rebind
`_config_object` to `self` (modelled by the instance id `self`).
The field objects live in the class-level registry, so the input store is
the (shared) registry and the output is the registry after this
construction's mutations. -/
def BaseConfigClass.init (self : Nat) (kwargs : List (String × PyVal)) :
    List (String × Field) → Except PyErr (List (String × Field))
  | [] => Except.ok []
  | (n, f) :: rest => do
      let f1 ← match List.lookup n kwargs with
        | Option.some v => Field.set_value f v
        | Option.none => Except.ok f
      let f2 : Field := { f1 with config_object := Option.some self }
      let rest1 ← BaseConfigClass.init self kwargs rest
      Except.ok ((n, f2) :: rest1)

/-- Names of the `_constant_fields` sub-registry: the declared fields whose
object is a `Constant`. -/
def constant_field_names (store : List (String × Field)) : List String :=
  keys (store.filter (fun p => decide (p.2.kind = FieldKind.constant)))

/-- One step of `update`/`from_dict`: `config._constant_fields[key].set_value(value)`
mutates the shared field object in place, which is the same object held by
`_declared_fields`; only a `Constant` can be reached this way. -/
def set_constant (store : List (String × Field)) (k : String) (v : PyVal) :
    List (String × Field) :=
  store.map (fun p =>
    if p.1 = k ∧ p.2.kind = FieldKind.constant then (p.1, { p.2 with value := v })
    else p)

/-- `BaseConfigClass.update(dct)`: for every key of the mapping in order,
if the key names a constant field, set that field's value; all other keys
are ignored. -/
def BaseConfigClass.update (dct : List (String × PyVal))
    (store : List (String × Field)) : List (String × Field) :=
  dct.foldl
    (fun s p =>
      if p.1 ∈ constant_field_names s then set_constant s p.1 p.2 else s)
    store

/-- `BaseConfigClass.from_dict(dct)`: construct with no keyword overrides
(`cls()`), then apply the `update` loop over the mapping. -/
def BaseConfigClass.from_dict (self : Nat) (dct : List (String × PyVal))
    (store : List (String × Field)) : Except PyErr (List (String × Field)) := do
  let s ← BaseConfigClass.init self [] store
  Except.ok (BaseConfigClass.update dct s)

/-- Loop body of `BaseConfigClass.to_dict`: iterate the declared fields in
registry order; `except DontDumpError: pass` skips the field, and
`except Exception as e: raise e` re-raises every other failure, aborting
the dump. -/
def BaseConfigClass.to_dict_aux (store : List (String × Field))
    (check_dont_dump : Bool) (check_printable : Bool) :
    List (String × Field) → Except PyErr (List (String × PyVal))
  | [] => Except.ok []
  | (n, f) :: rest =>
    match Field.get_value store f check_dont_dump check_printable with
    | Except.ok v => do
        let d ← BaseConfigClass.to_dict_aux store check_dont_dump check_printable rest
        Except.ok ((n, v) :: d)
    | Except.error PyErr.dontDumpError =>
        BaseConfigClass.to_dict_aux store check_dont_dump check_printable rest
    | Except.error e => Except.error e

/-- `BaseConfigClass.to_dict(check_dont_dump=True, check_printable=False)`. -/
def BaseConfigClass.to_dict (store : List (String × Field))
    (check_dont_dump : Bool) (check_printable : Bool) :
    Except PyErr (List (String × PyVal)) :=
  BaseConfigClass.to_dict_aux store check_dont_dump check_printable store

/-- Run one validator per field of a list, aborting at the first raised
exception (loop bodies of `BaseConfigClass.validate`). -/
def validate_each (g : Field → Except PyErr Unit) :
    List (String × Field) → Except PyErr Unit
  | [] => Except.ok ()
  | (_, f) :: rest => do
      g f
      validate_each g rest

/-- `BaseConfigClass.validate()`: `value.validate()` on every field of
`_constant_fields`, then `value.validate(self)` on every field of
`_deriable_fields`; the first exception propagates and aborts. -/
def BaseConfigClass.validate (store : List (String × Field)) :
    Except PyErr Unit := do
  validate_each (Constant.validate store)
    (store.filter (fun p => decide (p.2.kind = FieldKind.constant)))
  validate_each (Derivable.validate store)
    (store.filter (fun p => decide (p.2.kind = FieldKind.derivable)))

/-- Computation rule for `Except` bind on a success, used to unfold the
do-notation of the embedded operations. -/
@[simp] theorem except_bind_ok {ε α β : Type} (a : α) (g : α → Except ε β) :
    Except.ok a >>= g = g a := rfl

/-- Computation rule for `Except` bind on a failure. -/
@[simp] theorem except_bind_error {ε α β : Type} (e : ε) (g : α → Except ε β) :
    (Except.error e : Except ε α) >>= g = Except.error e := rfl

/-! ### Claim C9 -/

/-- C9: for every Field (Constant or Derivable) constructed with
`value=None` and any `default` `d`, the resulting field's value is `None`
rather than `d` — the `default` constructor parameter never takes effect,
because the conditional default assignment is unconditionally overwritten
by the `value` argument (second conjunct: the stored value always equals
the `value` argument). -/
theorem field_init_default_never_takes_effect :
    (∀ (kind : FieldKind) (d : PyVal) (dd pr : Bool) (idx : Nat),
      (Field.init kind PyVal.none d dd pr idx).value = PyVal.none)
    ∧ (∀ (kind : FieldKind) (v d : PyVal) (dd pr : Bool) (idx : Nat),
      (Field.init kind v d dd pr idx).value = v) :=
  ⟨fun _ _ _ _ _ => rfl, fun _ _ _ _ _ _ => rfl⟩

/-! ### Claim C5 -/

/-- C5: `setValue` on any `Derivable` field fails with the
derivable-set-value error for any input value, both when invoked directly
and when a same-named keyword override is supplied at instance
construction; `Constant.setValue` instead overwrites the value
unconditionally with no type check. -/
theorem derivable_never_settable :
    (∀ (f : Field) (v : PyVal), f.kind = FieldKind.derivable →
      Field.set_value f v = Except.error (PyErr.deriableSetValueError
        "Derivable.set_value method should never bee called"))
    ∧ (∀ (self : Nat) (kwargs : List (String × PyVal)) (store : List (String × Field)),
      (∃ p ∈ store, p.2.kind = FieldKind.derivable ∧ (List.lookup p.1 kwargs).isSome) →
      BaseConfigClass.init self kwargs store = Except.error (PyErr.deriableSetValueError
        "Derivable.set_value method should never bee called"))
    ∧ (∀ (f : Field) (v : PyVal), f.kind = FieldKind.constant →
      Field.set_value f v = Except.ok { f with value := v }) := by
  refine ⟨?_, ?_, ?_⟩
  · intro f v h
    simp [Field.set_value, h]
  · intro self kwargs store hex
    induction store with
    | nil => obtain ⟨p, hp, _⟩ := hex; cases hp
    | cons q rest ih =>
      obtain ⟨n, f⟩ := q
      cases hlk : List.lookup n kwargs with
      | none =>
        have hrest : ∃ p ∈ rest, p.2.kind = FieldKind.derivable ∧
            (List.lookup p.1 kwargs).isSome := by
          obtain ⟨p, hp, hder, hs⟩ := hex
          rcases List.mem_cons.mp hp with h | h
          · subst h; rw [hlk] at hs; cases hs
          · exact ⟨p, h, hder, hs⟩
        simp [BaseConfigClass.init, hlk, ih hrest]
      | some v =>
        cases hfk : f.kind with
        | derivable =>
          simp [BaseConfigClass.init, hlk, Field.set_value, hfk]
        | constant =>
          have hrest : ∃ p ∈ rest, p.2.kind = FieldKind.derivable ∧
              (List.lookup p.1 kwargs).isSome := by
            obtain ⟨p, hp, hder, hs⟩ := hex
            rcases List.mem_cons.mp hp with h | h
            · subst h; rw [hfk] at hder; cases hder
            · exact ⟨p, h, hder, hs⟩
          simp [BaseConfigClass.init, hlk, Field.set_value, hfk, ih hrest]
  · intro f v h
    simp [Field.set_value, h]

/-- Concrete derivable field used by the C5 witness. -/
def c5_deriv : Field :=
  { kind := FieldKind.derivable
    value := PyVal.none
    dont_dump := false
    printable := true
    creation_index := 0
    config_object := Option.none
    getter_method := Option.none
    validate_method := fun _ => Option.none }

/-- Concrete constant field used by the C5 witness. -/
def c5_const : Field :=
  { c5_deriv with kind := FieldKind.constant, creation_index := 1 }

/-- Witness for C5 at concrete inputs. -/
theorem derivable_never_settable_witness :
    Field.set_value c5_deriv (PyVal.int 7)
      = Except.error (PyErr.deriableSetValueError
          "Derivable.set_value method should never bee called")
    ∧ BaseConfigClass.init 1 [("d", PyVal.int 7)] [("d", c5_deriv)]
      = Except.error (PyErr.deriableSetValueError
          "Derivable.set_value method should never bee called")
    ∧ Field.set_value c5_const (PyVal.int 7)
      = Except.ok { c5_const with value := PyVal.int 7 } :=
  ⟨derivable_never_settable.1 c5_deriv (PyVal.int 7) rfl,
   derivable_never_settable.2.1 1 [("d", PyVal.int 7)] [("d", c5_deriv)]
     ⟨("d", c5_deriv), by simp, rfl, by simp [List.lookup]⟩,
   derivable_never_settable.2.2 c5_const (PyVal.int 7) rfl⟩

/-! ### Claim C1 -/

/-- Concrete constant field used for claim C1. -/
def c1_field : Field :=
  { kind := FieldKind.constant
    value := PyVal.int 1
    dont_dump := false
    printable := true
    creation_index := 0
    config_object := Option.none
    getter_method := Option.none
    validate_method := fun _ => Option.none }

/-- C1 counterexample: config instances do NOT own private copies of the
declared Field objects.  The registry `[("x", c1_field)]` is the
class-level store shared by all instances.  Constructing instance 1 binds
the shared field to instance 1; then constructing instance 2 with the
keyword `x = 2` overwrites the very same field object: afterwards its
value is `2` (not instance 1's `1`) and its `config_object` is instance 2
(not instance 1), so instance 1's view changed. -/
theorem config_instances_share_fields_counterexample :
    (BaseConfigClass.init 1 [] [("x", c1_field)]).bind
      (fun s1 => BaseConfigClass.init 2 [("x", PyVal.int 2)] s1)
      = Except.ok [("x", { c1_field with
          value := PyVal.int 2, config_object := Option.some 2 })]
    ∧ PyVal.int 2 ≠ PyVal.int 1
    ∧ (Option.some 2 : Option Nat) ≠ Option.some 1 :=
  ⟨rfl, by decide, by decide⟩

/-- C1 amended: all instances of a schema share the class-level Field
objects.  Constructing an instance rebinds `config_object` of EVERY
declared field (overridden by keyword or not) to the new instance, and a
keyword/`fromDict`/`update` write mutates the shared field seen by every
other instance.  Formally: a successful construction returns the shared
store with the same field names, every field stamped with the new
instance's id. -/
theorem config_construction_rebinds_shared_fields
    (self : Nat) (kwargs : List (String × PyVal))
    (store fs : List (String × Field))
    (h : BaseConfigClass.init self kwargs store = Except.ok fs) :
    keys fs = keys store ∧ ∀ p ∈ fs, p.2.config_object = Option.some self := by
  induction store generalizing fs with
  | nil =>
    simp [BaseConfigClass.init] at h
    subst h
    simp [keys]
  | cons q rest ih =>
    obtain ⟨n, f⟩ := q
    cases hlk : List.lookup n kwargs with
    | none =>
      cases hr : BaseConfigClass.init self kwargs rest with
      | error e => simp [BaseConfigClass.init, hlk, hr] at h
      | ok rest1 =>
        simp [BaseConfigClass.init, hlk, hr] at h
        subst h
        obtain ⟨hk, hb⟩ := ih rest1 hr
        constructor
        · simp only [keys] at hk
          simp only [keys, List.map_cons, hk]
        · intro p hp
          rcases List.mem_cons.mp hp with h2 | h2
          · subst h2; rfl
          · exact hb p h2
    | some v =>
      cases hsv : Field.set_value f v with
      | error e => simp [BaseConfigClass.init, hlk, hsv] at h
      | ok f1 =>
        cases hr : BaseConfigClass.init self kwargs rest with
        | error e => simp [BaseConfigClass.init, hlk, hsv, hr] at h
        | ok rest1 =>
          simp [BaseConfigClass.init, hlk, hsv, hr] at h
          subst h
          obtain ⟨hk, hb⟩ := ih rest1 hr
          constructor
          · simp only [keys] at hk
            simp only [keys, List.map_cons, hk]
          · intro p hp
            rcases List.mem_cons.mp hp with h2 | h2
            · subst h2; rfl
            · exact hb p h2

/-- Witness for the amended C1: constructing instance 2 over the store
already bound to instance 1 rebinds the shared field to instance 2. -/
theorem config_construction_rebinds_shared_fields_witness :
    keys [("x", { c1_field with
        value := PyVal.int 2, config_object := Option.some 2 })]
      = keys [("x", { c1_field with config_object := Option.some 1 })]
    ∧ ∀ p ∈ [("x", { c1_field with
        value := PyVal.int 2, config_object := Option.some 2 })],
        p.2.config_object = Option.some (2 : Nat) :=
  config_construction_rebinds_shared_fields 2 [("x", PyVal.int 2)]
    [("x", { c1_field with config_object := Option.some 1 })] _ rfl

/-! ### Claim C7 -/

/-- The field store after a plain construction (`cls()`): every field
rebound to the new instance, values untouched. -/
def bind_store (self : Nat) (store : List (String × Field)) :
    List (String × Field) :=
  store.map (fun p => (p.1, { p.2 with config_object := Option.some self }))

/-- Constructing with no keyword overrides never fails and just rebinds
every field. -/
theorem init_no_kwargs (self : Nat) :
    ∀ store, BaseConfigClass.init self [] store
      = Except.ok (bind_store self store) := by
  intro store
  induction store with
  | nil => rfl
  | cons p rest ih =>
    obtain ⟨n, f⟩ := p
    simp [BaseConfigClass.init, List.lookup, ih, bind_store]

/-- The constant-field name set is invariant under any per-entry rewrite
that preserves names and kinds. -/
theorem cfn_map_invariant (g : String × Field → String × Field)
    (hg : ∀ p, (g p).1 = p.1 ∧ (g p).2.kind = p.2.kind) :
    ∀ s, constant_field_names (s.map g) = constant_field_names s := by
  intro s
  induction s with
  | nil => rfl
  | cons p rest ih =>
    obtain ⟨h1, h2⟩ := hg p
    simp only [List.map_cons, constant_field_names, keys, List.filter_cons, h2]
    by_cases hk : p.2.kind = FieldKind.constant
    · have := ih
      simp only [constant_field_names, keys] at this
      simp [hk, h1, this]
    · have := ih
      simp only [constant_field_names, keys] at this
      simp [hk, this]

/-- `set_constant` preserves names and kinds, hence the constant-field
name registry. -/
theorem constant_field_names_set_constant (k : String) (v : PyVal)
    (s : List (String × Field)) :
    constant_field_names (set_constant s k v) = constant_field_names s := by
  have := cfn_map_invariant
    (fun p =>
      if p.1 = k ∧ p.2.kind = FieldKind.constant then (p.1, { p.2 with value := v })
      else p)
    (by
      intro p
      by_cases h : p.1 = k ∧ p.2.kind = FieldKind.constant
      · simp [h]
      · simp [h])
    s
  simpa [set_constant] using this

/-- `constant_field_names` of the bound store equals that of the raw
registry. -/
theorem cfn_bind_store (self : Nat) (store : List (String × Field)) :
    constant_field_names (bind_store self store) = constant_field_names store := by
  exact cfn_map_invariant _ (by intro p; exact ⟨rfl, rfl⟩) store

/-- The `update` loop only ever reads (and writes through) the
constant-field sub-registry, so keys of the mapping that do not name a
constant field can be dropped without changing the result. -/
theorem update_filter_constant (dct : List (String × PyVal)) :
    ∀ s, BaseConfigClass.update dct s
      = BaseConfigClass.update
          (dct.filter (fun p => decide (p.1 ∈ constant_field_names s))) s := by
  induction dct with
  | nil => intro s; rfl
  | cons p rest ih =>
    intro s
    by_cases h : p.1 ∈ constant_field_names s
    · have hstep : BaseConfigClass.update (p :: rest) s
          = BaseConfigClass.update rest (set_constant s p.1 p.2) := by
        simp [BaseConfigClass.update, h]
      have hstep2 : BaseConfigClass.update
            ((p :: rest).filter (fun q => decide (q.1 ∈ constant_field_names s))) s
          = BaseConfigClass.update
            (rest.filter (fun q => decide (q.1 ∈ constant_field_names s)))
            (set_constant s p.1 p.2) := by
        simp [List.filter_cons, h, BaseConfigClass.update]
      rw [hstep, hstep2, ih (set_constant s p.1 p.2),
        constant_field_names_set_constant]
    · have hstep : BaseConfigClass.update (p :: rest) s
          = BaseConfigClass.update rest s := by
        simp [BaseConfigClass.update, h]
      have hstep2 : (p :: rest).filter (fun q => decide (q.1 ∈ constant_field_names s))
          = rest.filter (fun q => decide (q.1 ∈ constant_field_names s)) := by
        simp [List.filter_cons, h]
      rw [hstep, hstep2, ih s]

/-- A derivable entry of the shared store is untouched by a
`set_constant` write. -/
theorem mem_set_constant_derivable {q : String × Field}
    (hq : q.2.kind = FieldKind.derivable) (k : String) (v : PyVal) :
    ∀ s, q ∈ s → q ∈ set_constant s k v := by
  intro s hmem
  induction s with
  | nil => cases hmem
  | cons p rest ih =>
    rcases List.mem_cons.mp hmem with h | h
    · subst h
      have hc : ¬ (q.1 = k ∧ q.2.kind = FieldKind.constant) := by
        simp [hq]
      simp [set_constant, hc]
    · simp only [set_constant, List.map_cons]
      exact List.mem_cons_of_mem _ (by simpa [set_constant] using ih h)

/-- A derivable entry survives the whole `update` loop unchanged. -/
theorem mem_update_derivable {q : String × Field}
    (hq : q.2.kind = FieldKind.derivable) (dct : List (String × PyVal)) :
    ∀ s, q ∈ s → q ∈ BaseConfigClass.update dct s := by
  induction dct with
  | nil => intro s h; exact h
  | cons p rest ih =>
    intro s h
    by_cases hc : p.1 ∈ constant_field_names s
    · have : BaseConfigClass.update (p :: rest) s
          = BaseConfigClass.update rest (set_constant s p.1 p.2) := by
        simp [BaseConfigClass.update, hc]
      rw [this]
      exact ih _ (mem_set_constant_derivable hq p.1 p.2 s h)
    · have : BaseConfigClass.update (p :: rest) s
          = BaseConfigClass.update rest s := by
        simp [BaseConfigClass.update, hc]
      rw [this]
      exact ih s h

/-- C7: `fromDict` constructs an instance and sets values only for keys
that name constant fields; every other key — including a key matching a
derivable field name — is silently ignored without error (the whole call
succeeds), leaving each derivable field's computed behavior (its getter
and stored state) unaffected apart from the construction-time rebinding
every field receives. -/
theorem from_dict_ignores_non_constant_keys
    (self : Nat) (dct : List (String × PyVal)) (store : List (String × Field)) :
    BaseConfigClass.from_dict self dct store
      = BaseConfigClass.from_dict self
          (dct.filter (fun p => decide (p.1 ∈ constant_field_names store))) store
    ∧ ∃ fs, BaseConfigClass.from_dict self dct store = Except.ok fs
      ∧ ∀ p ∈ store, p.2.kind = FieldKind.derivable →
          (p.1, { p.2 with config_object := Option.some self }) ∈ fs := by
  have hi := init_no_kwargs self store
  constructor
  · simp only [BaseConfigClass.from_dict, hi, except_bind_ok]
    rw [update_filter_constant dct (bind_store self store), cfn_bind_store]
  · refine ⟨BaseConfigClass.update dct (bind_store self store),
      by simp [BaseConfigClass.from_dict, hi], ?_⟩
    intro p hp hder
    refine mem_update_derivable (q := (p.1, { p.2 with config_object := Option.some self }))
      hder dct _ ?_
    exact List.mem_map.mpr ⟨p, hp, rfl⟩

/-- Concrete constant field for the C7 witness. -/
def c7_const : Field :=
  { kind := FieldKind.constant
    value := PyVal.int 1
    dont_dump := false
    printable := true
    creation_index := 0
    config_object := Option.none
    getter_method := Option.none
    validate_method := fun _ => Option.none }

/-- Concrete derivable field for the C7 witness. -/
def c7_deriv : Field :=
  { c7_const with
    kind := FieldKind.derivable
    creation_index := 1
    getter_method := Option.some (fun _ => PyVal.str "computed") }

/-- Witness for C7: a mapping that names the derivable field (and an
unknown key) still constructs, and the derivable field comes through
bound-but-otherwise-unchanged. -/
theorem from_dict_ignores_non_constant_keys_witness :
    ∃ fs, BaseConfigClass.from_dict 1
        [("d", PyVal.int 5), ("zz", PyVal.int 1), ("a", PyVal.int 3)]
        [("a", c7_const), ("d", c7_deriv)] = Except.ok fs
      ∧ ("d", { c7_deriv with config_object := Option.some 1 }) ∈ fs := by
  obtain ⟨h1, fs, hfs, hder⟩ := from_dict_ignores_non_constant_keys 1
    [("d", PyVal.int 5), ("zz", PyVal.int 1), ("a", PyVal.int 3)]
    [("a", c7_const), ("d", c7_deriv)]
  exact ⟨fs, hfs, hder ("d", c7_deriv) (by simp) rfl⟩

/-! ### Claim C6 -/

/-- Every entry of a successful `to_dict` output comes from a field of the
traversed list whose `get_value` succeeded with that value. -/
theorem to_dict_aux_mem_src (store : List (String × Field)) (cdd cp : Bool) :
    ∀ l d, BaseConfigClass.to_dict_aux store cdd cp l = Except.ok d →
      ∀ q ∈ d, ∃ f, (q.1, f) ∈ l ∧ Field.get_value store f cdd cp = Except.ok q.2 := by
  intro l
  induction l with
  | nil =>
    intro d h q hq
    simp [BaseConfigClass.to_dict_aux] at h
    subst h
    cases hq
  | cons p rest ih =>
    intro d h q hq
    obtain ⟨n, f⟩ := p
    cases hg : Field.get_value store f cdd cp with
    | ok v =>
      cases hr : BaseConfigClass.to_dict_aux store cdd cp rest with
      | error e => simp [BaseConfigClass.to_dict_aux, hg, hr] at h
      | ok d2 =>
        simp [BaseConfigClass.to_dict_aux, hg, hr] at h
        subst h
        rcases List.mem_cons.mp hq with h2 | h2
        · subst h2; exact ⟨f, List.mem_cons_self _ _, hg⟩
        · obtain ⟨f2, hf2, hgv⟩ := ih d2 hr q h2
          exact ⟨f2, List.mem_cons_of_mem _ hf2, hgv⟩
    | error e =>
      cases e with
      | dontDumpError =>
        simp only [BaseConfigClass.to_dict_aux, hg] at h
        obtain ⟨f2, hf2, hgv⟩ := ih d h q hq
        exact ⟨f2, List.mem_cons_of_mem _ hf2, hgv⟩
      | deriableSetValueError msg => simp [BaseConfigClass.to_dict_aux, hg] at h
      | attributeError msg => simp [BaseConfigClass.to_dict_aux, hg] at h
      | validationError msg => simp [BaseConfigClass.to_dict_aux, hg] at h
      | indexError => simp [BaseConfigClass.to_dict_aux, hg] at h

/-- On a successful `to_dict`, every traversed field either failed only
with the dump-suppression signal, or delivered its value into the output. -/
theorem to_dict_aux_entries (store : List (String × Field)) (cdd cp : Bool) :
    ∀ l d, BaseConfigClass.to_dict_aux store cdd cp l = Except.ok d →
      ∀ p ∈ l,
        (∀ e, Field.get_value store p.2 cdd cp = Except.error e →
          e = PyErr.dontDumpError)
        ∧ (∀ v, Field.get_value store p.2 cdd cp = Except.ok v → (p.1, v) ∈ d) := by
  intro l
  induction l with
  | nil => intro d _ p hp; cases hp
  | cons q rest ih =>
    intro d h p hp
    obtain ⟨n, f⟩ := q
    cases hg : Field.get_value store f cdd cp with
    | ok v =>
      cases hr : BaseConfigClass.to_dict_aux store cdd cp rest with
      | error e => simp [BaseConfigClass.to_dict_aux, hg, hr] at h
      | ok d2 =>
        simp [BaseConfigClass.to_dict_aux, hg, hr] at h
        subst h
        rcases List.mem_cons.mp hp with h2 | h2
        · subst h2
          constructor
          · intro e he; rw [hg] at he; cases he
          · intro v2 hv2
            rw [hg] at hv2
            cases hv2
            exact List.mem_cons_self _ _
        · obtain ⟨he, hv⟩ := ih d2 hr p h2
          exact ⟨he, fun v2 hv2 => List.mem_cons_of_mem _ (hv v2 hv2)⟩
    | error e =>
      cases e with
      | dontDumpError =>
        simp only [BaseConfigClass.to_dict_aux, hg] at h
        rcases List.mem_cons.mp hp with h2 | h2
        · subst h2
          constructor
          · intro e he; rw [hg] at he; cases he; rfl
          · intro v2 hv2; rw [hg] at hv2; cases hv2
        · exact ih d h p h2
      | deriableSetValueError msg => simp [BaseConfigClass.to_dict_aux, hg] at h
      | attributeError msg => simp [BaseConfigClass.to_dict_aux, hg] at h
      | validationError msg => simp [BaseConfigClass.to_dict_aux, hg] at h
      | indexError => simp [BaseConfigClass.to_dict_aux, hg] at h

/-- In a store with unique field names, a name determines its field. -/
theorem unique_key_field :
    ∀ {store : List (String × Field)}, (keys store).Nodup →
      ∀ {n : String} {f1 f2 : Field}, (n, f1) ∈ store → (n, f2) ∈ store → f1 = f2 := by
  intro store
  induction store with
  | nil => intro _ n f1 f2 h; cases h
  | cons p rest ih =>
    intro hnd n f1 f2 h1 h2
    simp only [keys, List.map_cons, List.nodup_cons] at hnd
    obtain ⟨hnotin, hnd2⟩ := hnd
    rcases List.mem_cons.mp h1 with e1 | e1 <;> rcases List.mem_cons.mp h2 with e2 | e2
    · rw [← e1] at e2
      injection e2 with hn hf
      exact hf.symm
    · exfalso
      apply hnotin
      have hn : p.1 = n := by rw [← e1]
      rw [hn]
      exact List.mem_map.mpr ⟨(n, f2), e2, rfl⟩
    · exfalso
      apply hnotin
      have hn : p.1 = n := by rw [← e2]
      rw [hn]
      exact List.mem_map.mpr ⟨(n, f1), e1, rfl⟩
    · exact ih (by simpa [keys] using hnd2) e1 e2

/-- A bound field read with `check_dont_dump = False` always succeeds. -/
theorem get_value_ok_of_bound (store : List (String × Field)) (f : Field)
    (cp : Bool) (hb : ¬ f.config_object = Option.none) :
    ∃ v, Field.get_value store f false cp = Except.ok v := by
  unfold Field.get_value
  rw [if_neg hb]
  simp only [Bool.false_and, Bool.false_eq_true, if_false]
  by_cases hp : (cp && !f.printable) = true
  · rw [if_pos hp]; exact ⟨_, rfl⟩
  · rw [if_neg hp]
    cases f.getter_method with
    | none => exact ⟨_, rfl⟩
    | some g => exact ⟨_, rfl⟩

/-- C6: on a schema with unique field names, `toDict(checkDontDump=True)`
never contains a key whose field has `dontDump=True`, while
`toDict(checkDontDump=False)` contains every field's key; and the
dump-suppression signal is the only `getValue` failure that `toDict`
absorbs — on a successful dump every `getValue` failure among the fields
was a `DontDumpError`, so every other failure aborts the whole dump. -/
theorem to_dict_dont_dump_guard (store : List (String × Field)) (cp : Bool)
    (hnd : (keys store).Nodup) :
    (∀ d, BaseConfigClass.to_dict store true cp = Except.ok d →
      ∀ p ∈ store, p.2.dont_dump = true → p.1 ∉ keys d)
    ∧ (∀ d, BaseConfigClass.to_dict store false cp = Except.ok d →
      ∀ p ∈ store, p.1 ∈ keys d)
    ∧ (∀ (cdd : Bool) d, BaseConfigClass.to_dict store cdd cp = Except.ok d →
      ∀ p ∈ store, ∀ e, Field.get_value store p.2 cdd cp = Except.error e →
        e = PyErr.dontDumpError) := by
  refine ⟨?_, ?_, ?_⟩
  · intro d h p hp hdd hk
    obtain ⟨q, hq, hq1⟩ := List.mem_map.mp hk
    obtain ⟨f, hf, hgv⟩ := to_dict_aux_mem_src store true cp store d h q hq
    rw [hq1] at hf
    have hfeq : f = p.2 := unique_key_field hnd hf (by
      have : (p.1, p.2) ∈ store := by simpa using hp
      exact this)
    rw [hfeq] at hgv
    by_cases hb : p.2.config_object = Option.none
    · unfold Field.get_value at hgv
      rw [if_pos hb] at hgv
      cases hgv
    · unfold Field.get_value at hgv
      rw [if_neg hb] at hgv
      simp only [hdd, Bool.and_true, Bool.true_and] at hgv
      cases hgv
  · intro d h p hp
    obtain ⟨he, hv⟩ := to_dict_aux_entries store false cp store d h p hp
    have hb : ¬ p.2.config_object = Option.none := by
      intro hb
      have : Field.get_value store p.2 false cp
          = Except.error (PyErr.attributeError
            "Field.get_value() can't be called without initialized with ") := by
        unfold Field.get_value
        rw [if_pos hb]
      cases he _ this
    obtain ⟨v, hok⟩ := get_value_ok_of_bound store p.2 cp hb
    have := hv v hok
    exact List.mem_map.mpr ⟨(p.1, v), this, rfl⟩
  · intro cdd d h p hp e he
    exact (to_dict_aux_entries store cdd cp store d h p hp).1 e he

/-- Concrete dumpable field for the C6 witness. -/
def c6_pub : Field :=
  { kind := FieldKind.constant
    value := PyVal.int 1
    dont_dump := false
    printable := true
    creation_index := 0
    config_object := Option.some 1
    getter_method := Option.none
    validate_method := fun _ => Option.none }

/-- Concrete dump-suppressed field for the C6 witness. -/
def c6_secret : Field :=
  { c6_pub with value := PyVal.int 9, dont_dump := true, creation_index := 1 }

/-- Witness for C6 on a two-field schema with a `dont_dump` secret. -/
theorem to_dict_dont_dump_guard_witness :
    "secret" ∉ keys [("pub", PyVal.int 1)]
    ∧ "secret" ∈ keys [("pub", PyVal.int 1), ("secret", PyVal.int 9)] := by
  have h := to_dict_dont_dump_guard [("pub", c6_pub), ("secret", c6_secret)] false
    (by decide)
  refine ⟨?_, ?_⟩
  · exact h.1 [("pub", PyVal.int 1)] rfl ("secret", c6_secret) (by simp) rfl
  · exact h.2.1 [("pub", PyVal.int 1), ("secret", PyVal.int 9)] rfl
      ("secret", c6_secret) (by simp)

/-! ### Claim C4 -/

/-- Derivable field, bound to instance 1, flagged `dont_dump=True`, with a
getter computing `42` and a validator that always passes — the concrete
input on which `validate()` misbehaves. -/
def c4_deriv : Field :=
  { kind := FieldKind.derivable
    value := PyVal.none
    dont_dump := true
    printable := true
    creation_index := 0
    config_object := Option.some 1
    getter_method := Option.some (fun _ => PyVal.int 42)
    validate_method := fun _ => Option.none }

/-- C4 failing input: `Derivable.validate(self, config_instance)` calls
`self.get_value(config_instance)`, and since `get_value`'s first
parameter is `check_dont_dump` (and a config object is always truthy),
a derivable field with `dont_dump=True` makes `validate()` raise
`DontDumpError` — the validator (which always passes here) is never
consulted, contradicting the claim that `validate` calls every derivable
field's validator with its computed value and passes the instance only as
getter context. -/
theorem validate_derivable_dont_dump_bug :
    BaseConfigClass.validate [("d", c4_deriv)] = Except.error PyErr.dontDumpError
    ∧ c4_deriv.validate_method (PyVal.int 42) = Option.none
    ∧ Derivable.validate [("d", c4_deriv)] c4_deriv
      = Except.error PyErr.dontDumpError :=
  ⟨rfl, rfl, rfl⟩

/-! ### Claim C10 -/

/-- Python `text.split(sep)` for a single-character separator, on
character lists (`"a__b".split("_") == ["a", "", "b"]`,
`"".split("_") == [""]`). -/
def splitChar (sep : Char) : List Char → List (List Char)
  | [] => [[]]
  | c :: cs =>
    if c = sep then [] :: splitChar sep cs
    else
      match splitChar sep cs with
      | [] => [[c]]
      | w :: ws => (c :: w) :: ws

/-- Loop of `to_big_camel_case`: for each `word` of `text.split("_")`,
`word[0].upper() + word[1:].lower()`; `word[0]` raises `IndexError` on an
empty segment, modelled as `none`.  `Char.toUpper`/`Char.toLower` model
`str.upper`/`str.lower` (exact on the ASCII keys in question). -/
def camel_words : List (List Char) → Option (List (List Char))
  | [] => Option.some []
  | [] :: _ => Option.none
  | (c :: cs) :: rest => do
      let r ← camel_words rest
      Option.some ((c.toUpper :: cs.map Char.toLower) :: r)

/-- `to_big_camel_case(text)` from `to_cloudformation_config_data`:
`"".join([word[0].upper() + word[1:].lower() for word in text.split("_")])`. -/
def to_big_camel_case (text : String) : Option String :=
  (camel_words (splitChar '_' text.data)).map (fun ws => String.mk ws.flatten)

/-- A Python `dict`/`OrderedDict` insertion: updating an existing key
keeps its position, a new key is appended. -/
def odInsert {α : Type} (m : List (String × α)) (p : String × α) :
    List (String × α) :=
  if p.1 ∈ keys m then m.map (fun q => if q.1 = p.1 then (q.1, p.2) else q)
  else m ++ [p]

/-- A Python `dict`/`OrderedDict` built from a sequence of pairs
(insert-or-update, first occurrence fixes the position, last occurrence
fixes the value). -/
def odOf {α : Type} (l : List (String × α)) : List (String × α) :=
  l.foldl odInsert []

/-- Key-rewriting loop of the dict comprehension in
`to_cloudformation_config_data`; the first `IndexError` aborts. -/
def camelize_pairs : List (String × PyVal) → Except PyErr (List (String × PyVal))
  | [] => Except.ok []
  | p :: rest =>
    match to_big_camel_case p.1 with
    | Option.some k => do
        let r ← camelize_pairs rest
        Except.ok ((k, p.2) :: r)
    | Option.none => Except.error PyErr.indexError

/-- `BaseConfigClass.to_cloudformation_config_data()`:
`{to_big_camel_case(key): value for key, value in self.to_dict().items()}`
(`to_dict` with its default flags `check_dont_dump=True,
check_printable=False`). -/
def BaseConfigClass.to_cloudformation_config_data
    (store : List (String × Field)) : Except PyErr (List (String × PyVal)) := do
  let d ← BaseConfigClass.to_dict store true false
  let pairs ← camelize_pairs d
  Except.ok (odOf pairs)

/-- `camel_words` fails exactly when some segment is empty. -/
theorem camel_words_none_iff :
    ∀ l : List (List Char), camel_words l = Option.none ↔ [] ∈ l := by
  intro l
  induction l with
  | nil => simp [camel_words]
  | cons w rest ih =>
    cases w with
    | nil => simp [camel_words]
    | cons c cs =>
      cases hr : camel_words rest with
      | none => simp [camel_words, hr, ih.mp hr]
      | some r =>
        have hnr : ¬ [] ∈ rest := fun hm => by
          have := ih.mpr hm
          rw [hr] at this
          cases this
        simp [camel_words, hr, hnr]

/-- `to_big_camel_case` fails exactly when some underscore-separated
segment of the key is empty. -/
theorem to_big_camel_case_none_iff (s : String) :
    to_big_camel_case s = Option.none ↔ [] ∈ splitChar '_' s.data := by
  unfold to_big_camel_case
  rw [Option.map_eq_none']
  exact camel_words_none_iff _

/-- The comprehension aborts with `IndexError` as soon as some key has an
empty underscore-separated segment. -/
theorem camelize_pairs_error (d : List (String × PyVal))
    (hex : ∃ p ∈ d, [] ∈ splitChar '_' p.1.data) :
    camelize_pairs d = Except.error PyErr.indexError := by
  induction d with
  | nil => obtain ⟨p, hp, _⟩ := hex; cases hp
  | cons p rest ih =>
    obtain ⟨q, hq, hqe⟩ := hex
    rcases List.mem_cons.mp hq with h2 | h2
    · subst h2
      have : to_big_camel_case q.1 = Option.none :=
        (to_big_camel_case_none_iff q.1).mpr hqe
      simp [camelize_pairs, this]
    · cases hc : to_big_camel_case p.1 with
      | none => simp [camelize_pairs, hc]
      | some k => simp [camelize_pairs, hc, ih ⟨q, h2, hqe⟩]

/-- When no key has an empty segment the comprehension succeeds and
rewrites each key to its CamelCase. -/
theorem camelize_pairs_ok (d : List (String × PyVal))
    (hall : ∀ p ∈ d, ¬ [] ∈ splitChar '_' p.1.data) :
    ∃ pairs, camelize_pairs d = Except.ok pairs
      ∧ List.Forall₂
          (fun p q => to_big_camel_case p.1 = Option.some q.1 ∧ q.2 = p.2)
          d pairs := by
  induction d with
  | nil => exact ⟨[], rfl, List.Forall₂.nil⟩
  | cons p rest ih =>
    obtain ⟨pairs2, hp2, hf2⟩ := ih (fun q hq => hall q (List.mem_cons_of_mem _ hq))
    cases hc : to_big_camel_case p.1 with
    | none =>
      exact absurd ((to_big_camel_case_none_iff p.1).mp hc)
        (hall p (List.mem_cons_self _ _))
    | some k =>
      refine ⟨(k, p.2) :: pairs2, ?_, List.Forall₂.cons ⟨hc, rfl⟩ hf2⟩
      simp [camelize_pairs, hc, hp2]

/-- C10: the CloudFormation export transform is partial.  If the exported
dict has a key with an empty underscore-separated segment,
`toCloudformationConfigData` aborts with the `IndexError` from `word[0]`;
if every segment of every key is non-empty, it returns the dict with each
key rewritten to CamelCase (`Forall₂`: pairwise, the output key is the
CamelCase of the input key and the value is carried over). -/
theorem to_cloudformation_partiality (store : List (String × Field))
    (d : List (String × PyVal))
    (h : BaseConfigClass.to_dict store true false = Except.ok d) :
    ((∃ p ∈ d, [] ∈ splitChar '_' p.1.data) →
      BaseConfigClass.to_cloudformation_config_data store
        = Except.error PyErr.indexError)
    ∧ ((∀ p ∈ d, ¬ [] ∈ splitChar '_' p.1.data) →
      ∃ pairs, camelize_pairs d = Except.ok pairs
        ∧ BaseConfigClass.to_cloudformation_config_data store
          = Except.ok (odOf pairs)
        ∧ List.Forall₂
            (fun p q => to_big_camel_case p.1 = Option.some q.1 ∧ q.2 = p.2)
            d pairs) := by
  constructor
  · intro hex
    simp [BaseConfigClass.to_cloudformation_config_data, h,
      camelize_pairs_error d hex]
  · intro hall
    obtain ⟨pairs, hp, hf⟩ := camelize_pairs_ok d hall
    refine ⟨pairs, hp, ?_, hf⟩
    simp [BaseConfigClass.to_cloudformation_config_data, h, hp]

/-- Bound constant field `project_name` for the C10 witness. -/
def c10_project : Field :=
  { kind := FieldKind.constant
    value := PyVal.str "app"
    dont_dump := false
    printable := true
    creation_index := 0
    config_object := Option.some 1
    getter_method := Option.none
    validate_method := fun _ => Option.none }

/-- Bound constant field `stage` for the C10 witness. -/
def c10_stage : Field :=
  { c10_project with value := PyVal.str "dev", creation_index := 1 }

/-- Witness for C10: keys `project_name`/`stage` export as
`ProjectName`/`Stage`, while a key `_bad` (empty first segment) makes the
whole export fail with the indexing error. -/
theorem to_cloudformation_partiality_witness :
    BaseConfigClass.to_cloudformation_config_data
        [("project_name", c10_project), ("stage", c10_stage)]
      = Except.ok [("ProjectName", PyVal.str "app"), ("Stage", PyVal.str "dev")]
    ∧ BaseConfigClass.to_cloudformation_config_data [("_bad", c10_project)]
      = Except.error PyErr.indexError := by
  constructor
  · obtain ⟨pairs, hcz, hok, hf⟩ :=
      (to_cloudformation_partiality
        [("project_name", c10_project), ("stage", c10_stage)]
        [("project_name", PyVal.str "app"), ("stage", PyVal.str "dev")] rfl).2
        (by decide)
    have hcp : camelize_pairs
        [("project_name", PyVal.str "app"), ("stage", PyVal.str "dev")]
        = Except.ok [("ProjectName", PyVal.str "app"), ("Stage", PyVal.str "dev")] := by
      rfl
    have hpairs : pairs
        = [("ProjectName", PyVal.str "app"), ("Stage", PyVal.str "dev")] := by
      have h2 := hcp.symm.trans hcz
      injection h2 with h3
      exact h3.symm
    rw [hok, hpairs]
    rfl
  · exact (to_cloudformation_partiality [("_bad", c10_project)]
      [("_bad", PyVal.str "app")] rfl).1
      ⟨("_bad", PyVal.str "app"), by simp, by decide⟩

/-! ### Claims C2 and C8: the comment stripper

`strip_comment_line_with_symbol(line, start)` splits the line on `start`
and, per split part, counts regex matches of
`(?:^|[^"\\]|(?:\\\\|\\")+)(")` (intended: unescaped double quotes); the
line is truncated at the first split point where the running count is
even.  The regex is modelled exactly, including `re.findall`'s
left-to-right non-overlapping scan and the greedy backtracking of the
escape group. -/

/-- Match `sep` as a prefix of the character list; return the remainder. -/
def matchSep : List Char → List Char → Option (List Char)
  | [], rest => Option.some rest
  | _ :: _, [] => Option.none
  | p :: ps, c :: cs => if c = p then matchSep ps cs else Option.none

/-- Python `line.split(sep)` for a non-empty separator.  Each step
consumes at least one character, so `length + 1` fuel always suffices. -/
def splitSubFuel (sep : List Char) : Nat → List Char → List (List Char)
  | 0, s => [s]
  | _ + 1, [] => [[]]
  | fuel + 1, c :: cs =>
    match matchSep sep (c :: cs) with
    | Option.some rest => [] :: splitSubFuel sep fuel rest
    | Option.none =>
      match splitSubFuel sep fuel cs with
      | [] => [[c]]
      | w :: ws => (c :: w) :: ws

/-- Python `line.split(sep)`, non-empty `sep`. -/
def splitSub (sep : List Char) (s : List Char) : List (List Char) :=
  splitSubFuel sep (s.length + 1) s

/-- Backtracking match of the regex tail `(?:\\\\|\\")+(")`: one or more
escape units (`\\` or `\"`), greedy, then a capturing quote; returns the
remainder after the quote. -/
def escThenQuote : List Char → Option (List Char)
  | '\\' :: '\\' :: rest =>
    (escThenQuote rest).orElse (fun _ =>
      match rest with
      | '"' :: r => Option.some r
      | _ => Option.none)
  | '\\' :: '"' :: rest =>
    (escThenQuote rest).orElse (fun _ =>
      match rest with
      | '"' :: r => Option.some r
      | _ => Option.none)
  | _ => Option.none

/-- One attempt of the quote-counting regex at the current position
(`atStart` marks the very start of the part, where `^` can match).  The
regex alternatives are tried in order: `^` then `"`, or a single
non-quote non-backslash character then `"`, or escape units then `"`. -/
def tryQuoteMatch (atStart : Bool) : List Char → Option (List Char)
  | [] => Option.none
  | c :: rest =>
    if atStart ∧ c = '"' then Option.some rest
    else if c ≠ '"' ∧ c ≠ '\\' then
      match rest with
      | '"' :: r => Option.some r
      | _ => Option.none
    else if c = '\\' then escThenQuote (c :: rest)
    else Option.none

/-- `re.findall` scan: non-overlapping matches left to right, advancing
one character after a failed attempt.  Each step consumes at least one
character, so `length + 1` fuel always suffices. -/
def scanQuotes : Nat → Bool → List Char → Nat
  | 0, _, _ => 0
  | _ + 1, _, [] => 0
  | fuel + 1, atStart, c :: rest =>
    match tryQuoteMatch atStart (c :: rest) with
    | Option.some r => 1 + scanQuotes fuel false r
    | Option.none => scanQuotes fuel false rest

/-- Number of quotes the regex counts in one split part. -/
def countQuotes (part : List Char) : Nat :=
  scanQuotes (part.length + 1) true part

/-- The `for nr, count in enumerate(counts): total += count;
if total % 2 == 0: return nr` loop; `none` models falling through to the
for-else clause. -/
def takeUntilEven (total : Nat) : List Nat → Option Nat
  | [] => Option.none
  | c :: rest =>
    if (total + c) % 2 = 0 then Option.some 0
    else (takeUntilEven (total + c) rest).map (fun nr => nr + 1)

/-- Python `str.rstrip()` whitespace set (space, tab, newline, carriage
return, vertical tab, form feed). -/
def isPySpace (c : Char) : Bool :=
  c == ' ' || c == '\t' || c == '\n' || c == '\r' || c == '\x0b' || c == '\x0c'

/-- Python `str.rstrip()`. -/
def rstrip (s : List Char) : List Char :=
  (s.reverse.dropWhile isPySpace).reverse

/-- Python `sep.join(parts)`. -/
def joinWith (sep : List Char) : List (List Char) → List Char
  | [] => []
  | [w] => w
  | w :: x :: ws => w ++ sep ++ joinWith sep (x :: ws)

/-- `strip_comment_line_with_symbol(line, start)`: split on `start`,
count regex quotes per part, truncate (rstripped) at the first prefix of
parts whose total quote count is even; if no prefix is even, return the
rstripped line unchanged. -/
def strip_comment_line_with_symbol (line start : List Char) : List Char :=
  let parts := splitSub start line
  let counts := parts.map countQuotes
  match takeUntilEven 0 counts with
  | Option.some nr => rstrip (joinWith start (parts.take (nr + 1)))
  | Option.none => rstrip line

/-- `strip_comments(string, comment_symbols=frozenset(("#", "//")))`:
split into lines, apply the line stripper once per symbol per line, and
re-join with newlines.  The iteration order of the CPython `frozenset` is
an implementation detail, so the symbol order is a parameter; the
theorems below evaluate both orders.  (Python `splitlines` also handles
`\r`-style terminators; the inputs here use `\n` only.) -/
def strip_comments (s : List Char) (symbols : List (List Char)) : List Char :=
  joinWith ['\n']
    ((splitChar '\n' s).map
      (fun l => symbols.foldl
        (fun acc sym => strip_comment_line_with_symbol acc sym) l))

/-- Sanity check (not a claim): on a line whose quoted `#` is preceded by
normally counted quotes, the stripper behaves as intended and removes
only the real trailing comment. -/
theorem strip_comment_line_simple_case :
    strip_comment_line_with_symbol ("\x7b\"b\": \"#y\"\x7d # c").data ['#']
      = ("\x7b\"b\": \"#y\"\x7d").data := by
  rfl

/-- C2 failing input: a JSON object containing an empty string value
before a string containing `#`, with a genuine trailing `#` comment. -/
def c2_input : String := "\x7b\"a\": \"\", \"b\": \"#x\"\x7d # note"

/-- The comment-free equivalent of `c2_input`. -/
def c2_comment_free : String := "\x7b\"a\": \"\", \"b\": \"#x\"\x7d"

/-- What the code actually produces for `c2_input`: the line truncated in
the middle of the quoted string (not even well-formed JSON). -/
def c2_truncated : String := "\x7b\"a\": \"\", \"b\": \""

/-- C2 (code bug, evaluated): the regex fails to count a quote that
immediately follows another quote (the closing and opening quotes around
`, ` after the empty string `""`), so the running count at the quoted `#`
is even and `strip_comments` truncates inside the string — under either
frozenset iteration order — instead of producing the comment-free
equivalent; parsing the truncated text cannot equal parsing the
comment-free text. -/
theorem strip_comments_truncates_inside_string :
    strip_comments c2_input.data [['#'], ['/', '/']] = c2_truncated.data
    ∧ strip_comments c2_input.data [['/', '/'], ['#']] = c2_truncated.data
    ∧ c2_truncated.data ≠ c2_comment_free.data :=
  ⟨rfl, rfl, by decide⟩

/-- C8 failing input: the same shape without any real comment — the only
`#` on the line is inside a quoted string. -/
def c8_line : String := "\x7b\"a\": \"\", \"b\": \"#y\"\x7d"

/-- C8 (code bug, evaluated): with a `#` inside a quoted string (after an
empty string value), the line stripper truncates the line inside the
string: the output is a strict prefix ending at the opening quote, and
the quoted `#y` is not preserved.  Both frozenset orders agree. -/
theorem strip_comment_line_truncates_quoted_hash :
    strip_comment_line_with_symbol c8_line.data ['#']
      = ("\x7b\"a\": \"\", \"b\": \"").data
    ∧ strip_comments c8_line.data [['#'], ['/', '/']]
      = ("\x7b\"a\": \"\", \"b\": \"").data
    ∧ strip_comments c8_line.data [['/', '/'], ['#']]
      = ("\x7b\"a\": \"\", \"b\": \"").data
    ∧ ("\x7b\"a\": \"\", \"b\": \"").data ≠ c8_line.data :=
  ⟨rfl, rfl, rfl, by decide⟩

/-! ### Claim C3: the field registry built by `ConfigMeta`

`ConfigMeta.__new__` computes
`cls_fields = _get_fields(attrs, Field, ordered=True)` (the class body's
fields, stably sorted by `_creation_index`),
`inherited_fields = _get_fields_by_mro(klass, Field, ordered=True)` (for
each base in the mro, most-base first and the class itself excluded,
`_get_fields(base._declared_fields, Field, ordered=True)`, concatenated),
and assigns `_declared_fields = OrderedDict(inherited_fields + cls_fields)`.
The framework bases (`object`, `BaseConfigClass`, the metaclass root)
contribute no fields. -/

/-- Sort key of `_get_fields(..., ordered=True)`:
`fields.sort(key=lambda pair: pair[1]._creation_index)`. -/
def fieldLe (p q : String × Field) : Prop :=
  p.2.creation_index ≤ q.2.creation_index

instance : DecidableRel fieldLe := fun p q =>
  Nat.decLe p.2.creation_index q.2.creation_index

instance : IsTotal (String × Field) fieldLe :=
  ⟨fun p q => Nat.le_total p.2.creation_index q.2.creation_index⟩

instance : IsTrans (String × Field) fieldLe :=
  ⟨fun _ _ _ => Nat.le_trans⟩

/-- Python's `list.sort` is stable; a stable sort by a fixed key is
unique, so insertion sort by the same key models it exactly. -/
def sortFields (l : List (String × Field)) : List (String × Field) :=
  List.insertionSort fieldLe l

/-- A schema class in a single-inheritance chain: `base attrs` is a class
whose parents carry no fields (a direct subclass of the metaclass root),
`derive parent attrs` extends another schema class.  `attrs` is the class
body's Field-valued attributes in definition order (non-Field attributes
are filtered out by `_get_fields` and not modelled). -/
inductive PyClass where
  | base (attrs : List (String × Field))
  | derive (parent : PyClass) (attrs : List (String × Field))

/-- `ConfigMeta.__new__` along the chain.  Returns
(the class's `_declared_fields`,
 the `inherited_fields` list that a direct subclass of this class will
 receive: the concatenation over the chain, most-base first, of
 `_get_fields(base._declared_fields, Field, ordered=True)`). -/
def configMeta : PyClass → (List (String × Field) × List (String × Field))
  | PyClass.base attrs =>
    let cls_fields := sortFields attrs
    let d := odOf cls_fields
    (d, sortFields d)
  | PyClass.derive parent attrs =>
    let ip := (configMeta parent).2
    let cls_fields := sortFields attrs
    let d := odOf (ip ++ cls_fields)
    (d, ip ++ sortFields d)

/-- The `_declared_fields` registry of a schema class. -/
def declaredFields (c : PyClass) : List (String × Field) :=
  (configMeta c).1

/-- All class bodies of the chain, most-base first, flattened. -/
def flatBodies : PyClass → List (String × Field)
  | PyClass.base attrs => attrs
  | PyClass.derive parent attrs => flatBodies parent ++ attrs

/-- The registry the specification describes: an ordered-map
insert-or-update over every field declaration, most-base class first,
each class body in declaration order.  Hence ancestor fields keep their
original positions in ancestor order, a name re-declared in a subclass
keeps the ancestor's position but maps to the subclass's Field object,
and new fields of the most-derived class are appended in creation
order. -/
def registrySpec (c : PyClass) : List (String × Field) :=
  odOf (flatBodies c)

/-- Every class body has unique attribute names (a Python class body is a
dict). -/
def bodiesOk : PyClass → Prop
  | PyClass.base attrs => (keys attrs).Nodup
  | PyClass.derive parent attrs => bodiesOk parent ∧ (keys attrs).Nodup

/-- Strictly increasing creation indices along the whole chain in
declaration order — exactly what the global `Field._creation_index`
counter produces when the class bodies are evaluated in order. -/
def idxStrictLt (p q : String × Field) : Prop :=
  p.2.creation_index < q.2.creation_index

instance : DecidableRel idxStrictLt := fun p q =>
  Nat.decLt p.2.creation_index q.2.creation_index

/-- Well-formed chain: globally strict creation indices, per-body unique
names. -/
def wellformed (c : PyClass) : Prop :=
  List.Pairwise idxStrictLt (flatBodies c) ∧ bodiesOk c

/-! #### Ordered-dict canonical form -/

/-- First-occurrence order of a key list. -/
def firstKeys : List String → List String
  | [] => []
  | k :: rest => k :: (firstKeys rest).filter (fun x => decide (x ≠ k))

/-- Value at the LAST occurrence of a key. -/
def lookupLast : List (String × Field) → String → Option Field
  | [], _ => Option.none
  | p :: rest, k =>
    match lookupLast rest k with
    | Option.some v => Option.some v
    | Option.none => if p.1 = k then Option.some p.2 else Option.none

/-- Canonical form of an ordered dict built from a pair list: keys in
first-occurrence order, values from the last occurrence. -/
def canon (l : List (String × Field)) : List (String × Field) :=
  (firstKeys (keys l)).filterMap
    (fun k => (lookupLast l k).map (fun v => (k, v)))

theorem odOf_append_single {α : Type} (l : List (String × α)) (p : String × α) :
    odOf (l ++ [p]) = odInsert (odOf l) p := by
  simp [odOf, List.foldl_append]

theorem odOf_append {α : Type} (l₁ l₂ : List (String × α)) :
    odOf (l₁ ++ l₂) = List.foldl odInsert (odOf l₁) l₂ := by
  simp [odOf, List.foldl_append]

theorem odOf_congr_append {α : Type} {x y : List (String × α)}
    (h : odOf x = odOf y) (z : List (String × α)) :
    odOf (x ++ z) = odOf (y ++ z) := by
  rw [odOf_append, odOf_append, h]

theorem firstKeys_append (xs ys : List String) :
    firstKeys (xs ++ ys)
      = firstKeys xs ++ (firstKeys ys).filter (fun k => decide (k ∉ xs)) := by
  induction xs with
  | nil =>
    have : ∀ l : List String, l.filter (fun k => decide (k ∉ ([] : List String))) = l := by
      intro l
      apply List.filter_eq_self.mpr
      intro a _
      simp
    simp [firstKeys, this]
  | cons x xs ih =>
    have hff : ∀ l : List String,
        (l.filter (fun k => decide (k ∉ xs))).filter (fun k => decide (k ≠ x))
          = l.filter (fun k => decide (k ∉ x :: xs)) := by
      intro l
      rw [List.filter_filter]
      apply List.filter_congr
      intro k _
      by_cases hx : k = x <;> by_cases hxs : k ∈ xs <;> simp [hx, hxs]
    calc firstKeys ((x :: xs) ++ ys)
        = x :: (firstKeys (xs ++ ys)).filter (fun k => decide (k ≠ x)) := rfl
      _ = x :: ((firstKeys xs).filter (fun k => decide (k ≠ x))
            ++ ((firstKeys ys).filter (fun k => decide (k ∉ xs))).filter
                (fun k => decide (k ≠ x))) := by
          rw [ih, List.filter_append]
      _ = x :: ((firstKeys xs).filter (fun k => decide (k ≠ x))
            ++ (firstKeys ys).filter (fun k => decide (k ∉ x :: xs))) := by
          rw [hff]
      _ = firstKeys (x :: xs) ++ (firstKeys ys).filter
            (fun k => decide (k ∉ x :: xs)) := by
          simp [firstKeys]

theorem lookupLast_append (x y : List (String × Field)) (k : String) :
    lookupLast (x ++ y) k
      = match lookupLast y k with
        | Option.some v => Option.some v
        | Option.none => lookupLast x k := by
  induction x with
  | nil =>
    cases h : lookupLast y k with
    | none => simp [lookupLast, h]
    | some v => simp [lookupLast, h]
  | cons p rest ih =>
    have hstep : lookupLast ((p :: rest) ++ y) k
        = match lookupLast (rest ++ y) k with
          | Option.some v => Option.some v
          | Option.none => if p.1 = k then Option.some p.2 else Option.none := rfl
    rw [hstep, ih]
    cases lookupLast y k with
    | none => rfl
    | some v => rfl

theorem lookupLast_append_single (l : List (String × Field))
    (p : String × Field) (k : String) :
    lookupLast (l ++ [p]) k
      = if p.1 = k then Option.some p.2 else lookupLast l k := by
  rw [lookupLast_append]
  have hsingle : lookupLast [p] k
      = if p.1 = k then Option.some p.2 else Option.none := rfl
  rw [hsingle]
  by_cases h : p.1 = k
  · simp [h]
  · simp [h]

theorem firstKeys_append_single (ks : List String) (k0 : String) :
    firstKeys (ks ++ [k0])
      = if k0 ∈ ks then firstKeys ks else firstKeys ks ++ [k0] := by
  rw [firstKeys_append]
  have hsingle : firstKeys [k0] = [k0] := rfl
  rw [hsingle]
  by_cases h : k0 ∈ ks
  · simp [h]
  · simp [h]

theorem mem_firstKeys (ks : List String) (k : String) :
    k ∈ firstKeys ks ↔ k ∈ ks := by
  induction ks with
  | nil => simp [firstKeys]
  | cons x ks ih =>
    simp only [firstKeys, List.mem_cons, List.mem_filter]
    constructor
    · rintro (h | ⟨h1, _⟩)
      · exact Or.inl h
      · exact Or.inr (ih.mp h1)
    · rintro (h | h)
      · exact Or.inl h
      · by_cases hx : k = x
        · exact Or.inl hx
        · exact Or.inr ⟨ih.mpr h, by simp [hx]⟩

theorem nodup_firstKeys (ks : List String) : (firstKeys ks).Nodup := by
  induction ks with
  | nil => exact List.nodup_nil
  | cons x ks ih =>
    simp only [firstKeys, List.nodup_cons]
    constructor
    · intro hmem
      have := (List.mem_filter.mp hmem).2
      simp at this
    · exact List.Nodup.filter _ ih

theorem lookupLast_isSome_of_mem :
    ∀ (l : List (String × Field)) (k : String), k ∈ keys l →
      ∃ v, lookupLast l k = Option.some v := by
  intro l
  induction l with
  | nil => intro k h; cases h
  | cons p rest ih =>
    intro k h
    simp only [keys, List.map_cons, List.mem_cons] at h
    cases hr : lookupLast rest k with
    | some v => exact ⟨v, by simp [lookupLast, hr]⟩
    | none =>
      rcases h with h | h
      · refine ⟨p.2, ?_⟩
        have hr2 : lookupLast rest p.1 = Option.none := by rw [← h]; exact hr
        simp [lookupLast, hr2, h]
      · obtain ⟨v, hv⟩ := ih k (by simpa [keys] using h)
        rw [hv] at hr
        cases hr

theorem lookupLast_eq_none_of_not_mem :
    ∀ (l : List (String × Field)) (k : String), ¬ k ∈ keys l →
      lookupLast l k = Option.none := by
  intro l
  induction l with
  | nil => intro k _; rfl
  | cons p rest ih =>
    intro k h
    simp only [keys, List.map_cons, List.mem_cons, not_or] at h
    obtain ⟨h1, h2⟩ := h
    have hrest := ih k (by simpa [keys] using h2)
    have hne : ¬ p.1 = k := fun he => h1 he.symm
    simp [lookupLast, hrest, hne]

theorem lookupLast_mem :
    ∀ (l : List (String × Field)) (k : String) (v : Field),
      lookupLast l k = Option.some v → (k, v) ∈ l := by
  intro l
  induction l with
  | nil => intro k v h; cases h
  | cons p rest ih =>
    intro k v h
    cases hr : lookupLast rest k with
    | some w =>
      have hh : lookupLast (p :: rest) k = Option.some w := by
        simp [lookupLast, hr]
      rw [hh] at h
      injection h with h2
      rw [← h2]
      exact List.mem_cons_of_mem _ (ih k w hr)
    | none =>
      have hh : lookupLast (p :: rest) k
          = if p.1 = k then Option.some p.2 else Option.none := by
        simp [lookupLast, hr]
      rw [hh] at h
      by_cases hp : p.1 = k
      · rw [if_pos hp] at h
        injection h with h2
        refine List.mem_cons.mpr (Or.inl ?_)
        rw [← hp, ← h2]
      · rw [if_neg hp] at h
        cases h

theorem filterMap_congr_own {α β : Type} (f g : α → Option β) :
    ∀ l : List α, (∀ a ∈ l, f a = g a) → l.filterMap f = l.filterMap g := by
  intro l
  induction l with
  | nil => intro _; rfl
  | cons a l ih =>
    intro h
    have ha := h a (List.mem_cons_self _ _)
    have hrest := ih (fun b hb => h b (List.mem_cons_of_mem _ hb))
    cases hg : g a with
    | none =>
      rw [List.filterMap_cons_none (by rw [ha, hg]),
        List.filterMap_cons_none hg, hrest]
    | some b =>
      rw [List.filterMap_cons_some (by rw [ha, hg]),
        List.filterMap_cons_some hg, hrest]

theorem keys_filterMap_keyed (F : String → Option Field) :
    ∀ ks : List String, (∀ k ∈ ks, ∃ v, F k = Option.some v) →
      keys (ks.filterMap (fun k => (F k).map (fun v => (k, v)))) = ks := by
  intro ks
  induction ks with
  | nil => intro _; rfl
  | cons k ks ih =>
    intro hall
    obtain ⟨v, hv⟩ := hall k (List.mem_cons_self _ _)
    have hstep : List.filterMap (fun k2 => (F k2).map (fun v2 => (k2, v2))) (k :: ks)
        = (k, v) :: List.filterMap (fun k2 => (F k2).map (fun v2 => (k2, v2))) ks := by
      simp [List.filterMap_cons, hv]
    rw [hstep]
    simp only [keys, List.map_cons]
    have := ih (fun k2 h2 => hall k2 (List.mem_cons_of_mem _ h2))
    simp only [keys] at this
    rw [this]

theorem keys_canon (l : List (String × Field)) :
    keys (canon l) = firstKeys (keys l) := by
  unfold canon
  apply keys_filterMap_keyed
  intro k hk
  exact lookupLast_isSome_of_mem l k ((mem_firstKeys _ _).mp hk)

theorem lookupLast_keyed (F : String → Option Field) :
    ∀ (ks : List String), ks.Nodup → ∀ k,
      lookupLast (ks.filterMap (fun k2 => (F k2).map (fun v => (k2, v)))) k
        = if k ∈ ks then F k else Option.none := by
  intro ks
  induction ks with
  | nil => intro _ k; simp [lookupLast]
  | cons k2 ks ih =>
    intro hnd k
    obtain ⟨hk2, hnd2⟩ := List.nodup_cons.mp hnd
    cases hF : F k2 with
    | none =>
      have hstep : List.filterMap (fun k3 => (F k3).map (fun w => (k3, w))) (k2 :: ks)
          = List.filterMap (fun k3 => (F k3).map (fun w => (k3, w))) ks := by
        simp [List.filterMap_cons, hF]
      rw [hstep, ih hnd2 k]
      by_cases hk : k = k2
      · subst hk
        simp [hk2, hF]
      · simp [hk]
    | some v =>
      have hstep : List.filterMap (fun k3 => (F k3).map (fun w => (k3, w))) (k2 :: ks)
          = (k2, v) :: List.filterMap (fun k3 => (F k3).map (fun w => (k3, w))) ks := by
        simp [List.filterMap_cons, hF]
      rw [hstep]
      have hh : lookupLast ((k2, v)
            :: ks.filterMap (fun k3 => (F k3).map (fun w => (k3, w)))) k
          = match lookupLast
              (ks.filterMap (fun k3 => (F k3).map (fun w => (k3, w)))) k with
            | Option.some w => Option.some w
            | Option.none => if k2 = k then Option.some v else Option.none := rfl
      rw [hh, ih hnd2 k]
      by_cases hk : k = k2
      · subst hk
        simp [hk2, hF]
      · have hk2n : ¬ k2 = k := fun he => hk he.symm
        by_cases hks : k ∈ ks
        · cases hFk : F k with
          | none => simp [hks, hFk, hk2n]
          | some w => simp [hks, hFk]
        · simp [hks, hk, hk2n]

theorem lookupLast_canon (l : List (String × Field)) (k : String) :
    lookupLast (canon l) k = lookupLast l k := by
  unfold canon
  rw [lookupLast_keyed _ _ (nodup_firstKeys _) k]
  by_cases hk : k ∈ keys l
  · rw [if_pos ((mem_firstKeys _ _).mpr hk)]
  · rw [if_neg (fun h => hk ((mem_firstKeys _ _).mp h)),
      lookupLast_eq_none_of_not_mem l k hk]

theorem canon_append_single (l : List (String × Field)) (p : String × Field) :
    canon (l ++ [p]) = odInsert (canon l) p := by
  have hk : keys (l ++ [p]) = keys l ++ [p.1] := by simp [keys]
  have hlk : ∀ k, lookupLast (l ++ [p]) k
      = if p.1 = k then Option.some p.2 else lookupLast l k :=
    lookupLast_append_single l p
  by_cases hmem : p.1 ∈ keys l
  · have hfk : firstKeys (keys (l ++ [p])) = firstKeys (keys l) := by
      rw [hk, firstKeys_append_single, if_pos hmem]
    have hkc : p.1 ∈ keys (canon l) := by
      rw [keys_canon]
      exact (mem_firstKeys _ _).mpr hmem
    rw [odInsert, if_pos hkc]
    unfold canon
    rw [hfk, List.map_filterMap]
    apply filterMap_congr_own
    intro k hkmem
    have hkl : k ∈ keys l := (mem_firstKeys _ _).mp hkmem
    obtain ⟨v, hv⟩ := lookupLast_isSome_of_mem l k hkl
    rw [hlk k, hv]
    by_cases hpk : p.1 = k
    · rw [if_pos hpk]
      simp [hpk]
    · rw [if_neg hpk]
      have hkp : ¬ k = p.1 := fun he => hpk he.symm
      simp [hkp]
  · have hfk : firstKeys (keys (l ++ [p]))
        = firstKeys (keys l) ++ [p.1] := by
      rw [hk, firstKeys_append_single, if_neg hmem]
    have hkc : ¬ p.1 ∈ keys (canon l) := by
      rw [keys_canon]
      exact fun h => hmem ((mem_firstKeys _ _).mp h)
    rw [odInsert, if_neg hkc]
    unfold canon
    rw [hfk, List.filterMap_append]
    have hlast : ([p.1].filterMap
        (fun k => (lookupLast (l ++ [p]) k).map (fun v => (k, v)))) = [p] := by
      rw [List.filterMap_cons_some (by rw [hlk p.1, if_pos rfl]; rfl)]
      rfl
    rw [hlast]
    refine congrArg (· ++ [p]) ?_
    apply filterMap_congr_own
    intro k hkmem
    have hkl : k ∈ keys l := (mem_firstKeys _ _).mp hkmem
    have hpk : ¬ p.1 = k := fun he => hmem (he ▸ hkl)
    rw [hlk k, if_neg hpk]

theorem odOf_eq_canon (l : List (String × Field)) : odOf l = canon l := by
  induction l using List.reverseRecOn with
  | nil => rfl
  | append_singleton l p ih =>
    rw [odOf_append_single, ih, canon_append_single]

theorem keys_odOf (l : List (String × Field)) :
    keys (odOf l) = firstKeys (keys l) := by
  rw [odOf_eq_canon, keys_canon]

theorem nodup_keys_odOf (l : List (String × Field)) :
    (keys (odOf l)).Nodup := by
  rw [keys_odOf]
  exact nodup_firstKeys _

theorem lookupLast_odOf (l : List (String × Field)) (k : String) :
    lookupLast (odOf l) k = lookupLast l k := by
  rw [odOf_eq_canon, lookupLast_canon]

theorem mem_odOf {l : List (String × Field)} {q : String × Field}
    (h : q ∈ odOf l) : q ∈ l := by
  rw [odOf_eq_canon] at h
  unfold canon at h
  obtain ⟨k, _, hk2⟩ := List.mem_filterMap.mp h
  cases hlk : lookupLast l k with
  | none => rw [hlk] at hk2; cases hk2
  | some v =>
    rw [hlk] at hk2
    injection hk2 with h3
    rw [← h3]
    exact lookupLast_mem l k v hlk

theorem odOf_ext {x y : List (String × Field)}
    (h1 : firstKeys (keys x) = firstKeys (keys y))
    (h2 : ∀ k, lookupLast x k = lookupLast y k) :
    odOf x = odOf y := by
  rw [odOf_eq_canon, odOf_eq_canon]
  unfold canon
  rw [h1]
  apply filterMap_congr_own
  intro k _
  rw [h2 k]

/-! #### Survivors of duplicate declarations -/

/-- Entries that are the last occurrence of their key — what survives
ordered-dict override resolution, in position order. -/
def lastOccs : List (String × Field) → List (String × Field)
  | [] => []
  | p :: rest => if p.1 ∈ keys rest then lastOccs rest else p :: lastOccs rest

theorem mem_lastOccs {l : List (String × Field)} {q : String × Field}
    (h : q ∈ lastOccs l) : q ∈ l := by
  induction l with
  | nil => cases h
  | cons p rest ih =>
    by_cases hm : p.1 ∈ keys rest
    · rw [lastOccs, if_pos hm] at h
      exact List.mem_cons_of_mem _ (ih h)
    · rw [lastOccs, if_neg hm] at h
      rcases List.mem_cons.mp h with h2 | h2
      · exact List.mem_cons.mpr (Or.inl h2)
      · exact List.mem_cons_of_mem _ (ih h2)

theorem keys_lastOccs_sub {l : List (String × Field)} {k : String}
    (h : k ∈ keys (lastOccs l)) : k ∈ keys l := by
  obtain ⟨q, hq, hq2⟩ := List.mem_map.mp h
  exact hq2 ▸ List.mem_map.mpr ⟨q, mem_lastOccs hq, rfl⟩

theorem keys_lastOccs_nodup (l : List (String × Field)) :
    (keys (lastOccs l)).Nodup := by
  induction l with
  | nil => exact List.nodup_nil
  | cons p rest ih =>
    by_cases hm : p.1 ∈ keys rest
    · rw [lastOccs, if_pos hm]; exact ih
    · rw [lastOccs, if_neg hm]
      simp only [keys, List.map_cons, List.nodup_cons]
      exact ⟨fun hk => hm (keys_lastOccs_sub hk), ih⟩

theorem lookupLast_lastOccs (l : List (String × Field)) (k : String) :
    lookupLast (lastOccs l) k = lookupLast l k := by
  induction l with
  | nil => rfl
  | cons p rest ih =>
    have hcons : lookupLast (p :: rest) k
        = match lookupLast rest k with
          | Option.some v => Option.some v
          | Option.none => if p.1 = k then Option.some p.2 else Option.none := rfl
    by_cases hm : p.1 ∈ keys rest
    · rw [lastOccs, if_pos hm, ih, hcons]
      cases hr : lookupLast rest k with
      | some v => rfl
      | none =>
        by_cases hpk : p.1 = k
        · obtain ⟨v, hv⟩ := lookupLast_isSome_of_mem rest p.1 hm
          rw [hpk] at hv
          rw [hv] at hr
          cases hr
        · simp [hpk]
    · rw [lastOccs, if_neg hm, hcons]
      have hcons2 : lookupLast (p :: lastOccs rest) k
          = match lookupLast (lastOccs rest) k with
            | Option.some v => Option.some v
            | Option.none => if p.1 = k then Option.some p.2 else Option.none := rfl
      rw [hcons2, ih]

theorem lastOccs_append (b : List (String × Field)) :
    ∀ P, lastOccs (P ++ b)
      = (lastOccs P).filter (fun q => decide (¬ q.1 ∈ keys b)) ++ lastOccs b := by
  intro P
  induction P with
  | nil => simp [lastOccs]
  | cons p P ih =>
    have hkeys : keys (P ++ b) = keys P ++ keys b := by simp [keys]
    by_cases hP : p.1 ∈ keys P
    · have hmem : p.1 ∈ keys (P ++ b) := by rw [hkeys]; exact List.mem_append_left _ hP
      rw [List.cons_append, lastOccs, if_pos hmem, lastOccs, if_pos hP, ih]
    · by_cases hb : p.1 ∈ keys b
      · have hmem : p.1 ∈ keys (P ++ b) := by
          rw [hkeys]; exact List.mem_append_right _ hb
        rw [List.cons_append, lastOccs, if_pos hmem, lastOccs, if_neg hP, ih]
        have : List.filter (fun q => decide (¬ q.1 ∈ keys b)) (p :: lastOccs P)
            = List.filter (fun q => decide (¬ q.1 ∈ keys b)) (lastOccs P) := by
          simp [List.filter_cons, hb]
        rw [this]
      · have hmem : ¬ p.1 ∈ keys (P ++ b) := by
          rw [hkeys]
          intro h
          rcases List.mem_append.mp h with h | h
          · exact hP h
          · exact hb h
        rw [List.cons_append, lastOccs, if_neg hmem, lastOccs, if_neg hP, ih]
        have : List.filter (fun q => decide (¬ q.1 ∈ keys b)) (p :: lastOccs P)
            = p :: List.filter (fun q => decide (¬ q.1 ∈ keys b)) (lastOccs P) := by
          simp [List.filter_cons, hb]
        rw [this, List.cons_append]

theorem lastOccs_of_nodup {l : List (String × Field)}
    (h : (keys l).Nodup) : lastOccs l = l := by
  induction l with
  | nil => rfl
  | cons p rest ih =>
    simp only [keys, List.map_cons, List.nodup_cons] at h
    obtain ⟨h1, h2⟩ := h
    rw [lastOccs, if_neg (by simpa [keys] using h1), ih (by simpa [keys] using h2)]

theorem firstKeys_of_nodup {ks : List String} (h : ks.Nodup) :
    firstKeys ks = ks := by
  induction ks with
  | nil => rfl
  | cons k ks ih =>
    obtain ⟨h1, h2⟩ := List.nodup_cons.mp h
    rw [firstKeys, ih h2, List.filter_eq_self.mpr]
    intro a ha
    simp only [decide_eq_true_eq]
    intro he
    exact h1 (he ▸ ha)

/-! #### Stable sorting with globally distinct creation indices -/

/-- Creation indices of a field list. -/
def idxList (l : List (String × Field)) : List Nat :=
  l.map (fun p => p.2.creation_index)

theorem pairwise_lt_perm_eq :
    ∀ {l₁ l₂ : List (String × Field)}, l₁.Perm l₂ →
      List.Pairwise idxStrictLt l₁ → List.Pairwise idxStrictLt l₂ → l₁ = l₂ := by
  intro l₁
  induction l₁ with
  | nil =>
    intro l₂ hp _ _
    exact (List.Perm.nil_eq hp)
  | cons a t₁ ih =>
    intro l₂ hp h1 h2
    cases l₂ with
    | nil => cases List.Perm.nil_eq hp.symm
    | cons b t₂ =>
      by_cases hab : a = b
      · subst hab
        have hp2 := hp.cons_inv
        rw [ih hp2 (List.pairwise_cons.mp h1).2 (List.pairwise_cons.mp h2).2]
      · exfalso
        have ha : a ∈ b :: t₂ := hp.subset (List.mem_cons_self _ _)
        have hat : a ∈ t₂ := by
          rcases List.mem_cons.mp ha with h | h
          · exact absurd h hab
          · exact h
        have hb : b ∈ a :: t₁ := hp.symm.subset (List.mem_cons_self _ _)
        have hbt : b ∈ t₁ := by
          rcases List.mem_cons.mp hb with h | h
          · exact absurd h.symm hab
          · exact h
        have hba : idxStrictLt b a := (List.pairwise_cons.mp h2).1 a hat
        have hab2 : idxStrictLt a b := (List.pairwise_cons.mp h1).1 b hbt
        exact Nat.lt_asymm hab2 hba

theorem nodup_idx_pairwise {l : List (String × Field)}
    (h : (idxList l).Nodup) :
    List.Pairwise (fun p q : String × Field =>
      p.2.creation_index ≠ q.2.creation_index) l := by
  unfold idxList at h
  unfold List.Nodup at h
  exact (List.pairwise_map).mp h

theorem pairwise_lt_of_sorted_nodup {l : List (String × Field)}
    (hs : List.Sorted fieldLe l) (hn : (idxList l).Nodup) :
    List.Pairwise idxStrictLt l := by
  have := List.Pairwise.and hs (nodup_idx_pairwise hn)
  exact this.imp (fun h => Nat.lt_of_le_of_ne h.1 h.2)

theorem pairwise_lt_idx_nodup {l : List (String × Field)}
    (h : List.Pairwise idxStrictLt l) : (idxList l).Nodup := by
  unfold idxList
  unfold List.Nodup
  rw [List.pairwise_map]
  exact h.imp Nat.ne_of_lt

theorem sortFields_perm (l : List (String × Field)) : (sortFields l).Perm l :=
  List.perm_insertionSort fieldLe l

theorem sortFields_sorted (l : List (String × Field)) :
    List.Sorted fieldLe (sortFields l) :=
  List.sorted_insertionSort fieldLe l

theorem idx_nodup_of_perm {l₁ l₂ : List (String × Field)}
    (hp : l₁.Perm l₂) (h : (idxList l₁).Nodup) : (idxList l₂).Nodup := by
  unfold idxList at h ⊢
  exact ((hp.map (fun p => p.2.creation_index)).nodup_iff).mp h

theorem sortFields_pairwise_lt {l : List (String × Field)}
    (h : (idxList l).Nodup) : List.Pairwise idxStrictLt (sortFields l) :=
  pairwise_lt_of_sorted_nodup (sortFields_sorted l)
    (idx_nodup_of_perm (sortFields_perm l).symm h)

theorem sortFields_eq_of_perm {l₁ l₂ : List (String × Field)}
    (hp : l₁.Perm l₂) (h : (idxList l₁).Nodup) :
    sortFields l₁ = sortFields l₂ := by
  refine pairwise_lt_perm_eq ((sortFields_perm l₁).trans
    (hp.trans (sortFields_perm l₂).symm)) ?_ ?_
  · exact sortFields_pairwise_lt h
  · exact sortFields_pairwise_lt (idx_nodup_of_perm hp h)

theorem sortFields_id_of_pairwise_lt {l : List (String × Field)}
    (h : List.Pairwise idxStrictLt l) : sortFields l = l :=
  List.Sorted.insertionSort_eq (h.imp Nat.le_of_lt)

theorem orderedInsert_append_single (a p : String × Field) (hap : fieldLe a p) :
    ∀ s, List.orderedInsert fieldLe a (s ++ [p])
      = List.orderedInsert fieldLe a s ++ [p] := by
  intro s
  induction s with
  | nil =>
    simp only [List.nil_append, List.orderedInsert]
    rw [if_pos hap]
    rfl
  | cons b s ih =>
    simp only [List.cons_append, List.orderedInsert, List.append_eq]
    by_cases hab : fieldLe a b
    · rw [if_pos hab, if_pos hab]
      rfl
    · rw [if_neg hab, if_neg hab, ih]
      rfl

theorem sortFields_append_max {l : List (String × Field)} {p : String × Field}
    (h : ∀ q ∈ l, idxStrictLt q p) :
    sortFields (l ++ [p]) = sortFields l ++ [p] := by
  induction l with
  | nil => rfl
  | cons a l ih =>
    have hap : fieldLe a p := Nat.le_of_lt (h a (List.mem_cons_self _ _))
    have hrest := ih (fun q hq => h q (List.mem_cons_of_mem _ hq))
    simp only [List.cons_append, sortFields, List.insertionSort,
      List.append_eq] at hrest ⊢
    rw [hrest, orderedInsert_append_single a p hap]

theorem idx_nodup_filter {l : List (String × Field)}
    (h : (idxList l).Nodup) (f : String × Field → Bool) :
    (idxList (l.filter f)).Nodup := by
  unfold idxList at h ⊢
  exact List.Nodup.sublist (List.Sublist.map _ (List.filter_sublist l)) h

theorem sortFields_filter {l : List (String × Field)}
    (h : (idxList l).Nodup) (f : String × Field → Bool) :
    sortFields (l.filter f) = (sortFields l).filter f := by
  refine pairwise_lt_perm_eq ?_ ?_ ?_
  · exact (sortFields_perm _).trans ((sortFields_perm l).filter f).symm
  · exact sortFields_pairwise_lt (idx_nodup_filter h f)
  · refine pairwise_lt_of_sorted_nodup (List.Sorted.filter f (sortFields_sorted l)) ?_
    exact idx_nodup_filter (idx_nodup_of_perm (sortFields_perm l).symm h) f

theorem map_upd_id {m : List (String × Field)} {p : String × Field}
    (h : ¬ p.1 ∈ keys m) :
    m.map (fun q => if q.1 = p.1 then (q.1, p.2) else q) = m := by
  induction m with
  | nil => rfl
  | cons q rest ih =>
    simp only [keys, List.map_cons, List.mem_cons, not_or] at h
    obtain ⟨h1, h2⟩ := h
    have hq : ¬ q.1 = p.1 := fun he => h1 he.symm
    rw [List.map_cons, if_neg hq, ih (by simpa [keys] using h2)]

theorem filter_ne_key_eq_self {m : List (String × Field)} {k : String}
    (h : ¬ k ∈ keys m) :
    m.filter (fun q => decide (¬ q.1 = k)) = m := by
  apply List.filter_eq_self.mpr
  intro q hq
  simp only [decide_eq_true_eq]
  intro he
  exact h (he ▸ List.mem_map.mpr ⟨q, hq, rfl⟩)

theorem map_upd_perm (p : String × Field) :
    ∀ m : List (String × Field), (keys m).Nodup → p.1 ∈ keys m →
      (m.map (fun q => if q.1 = p.1 then (q.1, p.2) else q)).Perm
        (m.filter (fun q => decide (¬ q.1 = p.1)) ++ [p]) := by
  intro m
  induction m with
  | nil => intro _ hm; cases hm
  | cons q rest ih =>
    intro hnd hm
    have hnd1 : (q.1 :: keys rest).Nodup := hnd
    obtain ⟨hq1, hnd2⟩ := List.nodup_cons.mp hnd1
    by_cases hqp : q.1 = p.1
    · have hrest : ¬ p.1 ∈ keys rest := by
        rw [← hqp]
        exact hq1
      rw [List.map_cons, if_pos hqp, map_upd_id hrest]
      have hfilter : (q :: rest).filter (fun q2 => decide (¬ q2.1 = p.1))
          = rest.filter (fun q2 => decide (¬ q2.1 = p.1)) := by
        simp [List.filter_cons, hqp]
      rw [hfilter, filter_ne_key_eq_self hrest]
      have hqq : ((q.1, p.2) : String × Field) = p := by rw [hqp]
      rw [hqq]
      exact (List.perm_append_singleton p rest).symm
    · have hm1 : p.1 ∈ q.1 :: keys rest := hm
      have hrest : p.1 ∈ keys rest := by
        rcases List.mem_cons.mp hm1 with h | h
        · exact absurd h.symm hqp
        · exact h
      rw [List.map_cons, if_neg hqp]
      have hfilter : (q :: rest).filter (fun q2 => decide (¬ q2.1 = p.1))
          = q :: rest.filter (fun q2 => decide (¬ q2.1 = p.1)) := by
        simp [List.filter_cons, hqp]
      rw [hfilter, List.cons_append]
      exact (ih hnd2 hrest).cons q

theorem odInsert_perm {m : List (String × Field)} (p : String × Field)
    (hnd : (keys m).Nodup) :
    (odInsert m p).Perm
      (m.filter (fun q => decide (¬ q.1 = p.1)) ++ [p]) := by
  by_cases hm : p.1 ∈ keys m
  · rw [odInsert, if_pos hm]
    exact map_upd_perm p m hnd hm
  · rw [odInsert, if_neg hm, filter_ne_key_eq_self hm]

theorem idx_nodup_odOf {L : List (String × Field)}
    (h : (idxList L).Nodup) : (idxList (odOf L)).Nodup := by
  have hinj : ∀ x ∈ L, ∀ y ∈ L,
      x.2.creation_index = y.2.creation_index → x = y := by
    intro x hx y hy hxy
    unfold idxList at h
    exact List.inj_on_of_nodup_map h hx hy hxy
  have hkeys : List.Pairwise (fun a b : String × Field => a.1 ≠ b.1) (odOf L) := by
    have hnk := nodup_keys_odOf L
    unfold keys at hnk
    unfold List.Nodup at hnk
    exact List.pairwise_map.mp hnk
  have hne : List.Pairwise (fun a b : String × Field =>
      a.2.creation_index ≠ b.2.creation_index) (odOf L) := by
    refine List.Pairwise.imp_of_mem ?_ hkeys
    intro a b ha hb hab hcontra
    exact hab (congrArg Prod.fst (hinj a (mem_odOf ha) b (mem_odOf hb) hcontra))
  unfold idxList
  unfold List.Nodup
  exact List.pairwise_map.mpr hne

/-- Key structural fact: with globally distinct creation indices,
re-sorting a class's `_declared_fields` by creation index yields exactly
the surviving declarations (`lastOccs`) of the flattened bodies, in
order. -/
theorem sortFields_odOf_eq_lastOccs :
    ∀ {L : List (String × Field)}, List.Pairwise idxStrictLt L →
      sortFields (odOf L) = lastOccs L := by
  intro L
  induction L using List.reverseRecOn with
  | nil => intro _; rfl
  | append_singleton L p ih =>
    intro h
    obtain ⟨hL, -, hmax⟩ := List.pairwise_append.mp h
    have hmax2 : ∀ q ∈ L, idxStrictLt q p :=
      fun q hq => hmax q hq p (List.mem_cons_self _ _)
    have hndL : (idxList L).Nodup := pairwise_lt_idx_nodup hL
    have hndOd : (idxList (odOf L)).Nodup := idx_nodup_odOf hndL
    have hmaxOd : ∀ q ∈ (odOf L).filter (fun q2 => decide (¬ q2.1 = p.1)),
        idxStrictLt q p :=
      fun q hq => hmax2 q (mem_odOf (List.mem_of_mem_filter hq))
    have hfin : (idxList ((odOf L).filter
        (fun q2 => decide (¬ q2.1 = p.1)) ++ [p])).Nodup := by
      have hx := idx_nodup_filter hndOd (fun q2 => decide (¬ q2.1 = p.1))
      unfold idxList at hx ⊢
      rw [List.map_append]
      refine List.Nodup.append hx (List.nodup_singleton _) ?_
      intro a ha hb
      obtain ⟨q, hq, hq2⟩ := List.mem_map.mp ha
      simp only [List.map_cons, List.map_nil, List.mem_cons,
        List.not_mem_nil, or_false] at hb
      have hlt2 : q.2.creation_index < p.2.creation_index := hmaxOd q hq
      rw [hq2, hb] at hlt2
      exact Nat.lt_irrefl _ hlt2
    have hperm : (odInsert (odOf L) p).Perm
        ((odOf L).filter (fun q2 => decide (¬ q2.1 = p.1)) ++ [p]) :=
      odInsert_perm p (nodup_keys_odOf L)
    calc sortFields (odOf (L ++ [p]))
        = sortFields (odInsert (odOf L) p) := by rw [odOf_append_single]
      _ = sortFields ((odOf L).filter (fun q2 => decide (¬ q2.1 = p.1)) ++ [p]) :=
          sortFields_eq_of_perm hperm (idx_nodup_of_perm hperm.symm hfin)
      _ = sortFields ((odOf L).filter (fun q2 => decide (¬ q2.1 = p.1))) ++ [p] :=
          sortFields_append_max hmaxOd
      _ = (sortFields (odOf L)).filter (fun q2 => decide (¬ q2.1 = p.1)) ++ [p] := by
          rw [sortFields_filter hndOd]
      _ = (lastOccs L).filter (fun q2 => decide (¬ q2.1 = p.1)) ++ [p] := by
          rw [ih hL]
      _ = lastOccs (L ++ [p]) := by
          rw [lastOccs_append [p] L]
          have hpred : (lastOccs L).filter (fun q2 => decide (¬ q2.1 ∈ keys [p]))
              = (lastOccs L).filter (fun q2 => decide (¬ q2.1 = p.1)) := by
            apply List.filter_congr
            intro q _
            simp [keys]
          rw [hpred]
          rfl

/-- Absorption: prepending the bodies `P` in front of the surviving
declarations of `P ++ b` does not change the ordered dict. -/
theorem odOf_prefix_lastOccs {P b : List (String × Field)}
    (hnd : (keys b).Nodup) :
    odOf (P ++ lastOccs (P ++ b)) = odOf (P ++ b) := by
  apply odOf_ext
  · have hk1 : keys (P ++ lastOccs (P ++ b))
        = keys P ++ keys (lastOccs (P ++ b)) := by simp [keys]
    have hk2 : keys (P ++ b) = keys P ++ keys b := by simp [keys]
    rw [hk1, hk2, firstKeys_append, firstKeys_append]
    refine congrArg (firstKeys (keys P) ++ ·) ?_
    rw [firstKeys_of_nodup (keys_lastOccs_nodup _), firstKeys_of_nodup hnd]
    rw [lastOccs_append b P, lastOccs_of_nodup hnd]
    have hkk : keys ((lastOccs P).filter (fun q => decide (¬ q.1 ∈ keys b)) ++ b)
        = keys ((lastOccs P).filter (fun q => decide (¬ q.1 ∈ keys b)))
          ++ keys b := by simp [keys]
    rw [hkk, List.filter_append]
    have hnil : (keys ((lastOccs P).filter
        (fun q => decide (¬ q.1 ∈ keys b)))).filter
        (fun k => decide (k ∉ keys P)) = [] := by
      rw [List.filter_eq_nil_iff]
      intro k hk
      obtain ⟨q, hq, hq2⟩ := List.mem_map.mp hk
      have hq3 : q ∈ lastOccs P := List.mem_of_mem_filter hq
      have : k ∈ keys P := by
        rw [← hq2]
        exact keys_lastOccs_sub (List.mem_map.mpr ⟨q, hq3, rfl⟩)
      simp [this]
    rw [hnil, List.nil_append]
  · intro k
    rw [lookupLast_append P (lastOccs (P ++ b)) k, lookupLast_lastOccs]
    cases h : lookupLast (P ++ b) k with
    | some v => rfl
    | none =>
      rw [lookupLast_append] at h
      cases hb : lookupLast b k with
      | some v => rw [hb] at h; cases h
      | none => rw [hb] at h; exact h

/-- Induction-carrying form of the registry theorem: the registry equals
the spec registry, and the accumulated `inherited_fields` of the chain is
equivalent (as ordered-dict input) to the flattened bodies. -/
theorem configMeta_spec :
    ∀ c : PyClass, wellformed c →
      declaredFields c = registrySpec c
      ∧ ∀ z, odOf ((configMeta c).2 ++ z) = odOf (flatBodies c ++ z) := by
  intro c
  induction c with
  | base attrs =>
    intro hwf
    obtain ⟨hidx, hnodup⟩ := hwf
    have hidxA : List.Pairwise idxStrictLt attrs := hidx
    have hsrt : sortFields attrs = attrs := sortFields_id_of_pairwise_lt hidxA
    have hfst : declaredFields (PyClass.base attrs) = odOf attrs := by
      unfold declaredFields configMeta
      rw [hsrt]
    constructor
    · rw [hfst]; rfl
    · intro z
      have hsnd : (configMeta (PyClass.base attrs)).2
          = sortFields (odOf (sortFields attrs)) := rfl
      rw [hsnd, hsrt, sortFields_odOf_eq_lastOccs hidxA]
      have hstep : odOf (lastOccs attrs) = odOf attrs := by
        have := odOf_prefix_lastOccs (P := []) (b := attrs)
          (show (keys attrs).Nodup from hnodup)
        simpa using this
      exact odOf_congr_append hstep z
  | derive parent attrs ihp =>
    intro hwf
    obtain ⟨hidx, hbo⟩ := hwf
    obtain ⟨hidxP, hidxA, -⟩ := List.pairwise_append.mp hidx
    have hwfp : wellformed parent := ⟨hidxP, hbo.1⟩
    obtain ⟨-, ihz⟩ := ihp hwfp
    have hsrt : sortFields attrs = attrs := sortFields_id_of_pairwise_lt hidxA
    have hcm : configMeta (PyClass.derive parent attrs)
        = (odOf ((configMeta parent).2 ++ sortFields attrs),
           (configMeta parent).2
             ++ sortFields (odOf ((configMeta parent).2 ++ sortFields attrs))) := rfl
    have hfst : declaredFields (PyClass.derive parent attrs)
        = odOf ((configMeta parent).2 ++ attrs) := by
      show (configMeta (PyClass.derive parent attrs)).1 = _
      rw [hcm, hsrt]
    have hfst2 : declaredFields (PyClass.derive parent attrs)
        = odOf (flatBodies parent ++ attrs) := by
      rw [hfst, ihz attrs]
    constructor
    · rw [hfst2]; rfl
    · intro z
      have hsnd : (configMeta (PyClass.derive parent attrs)).2
          = (configMeta parent).2
            ++ sortFields (odOf ((configMeta parent).2 ++ sortFields attrs)) := by
        rw [hcm]
      have hsd : sortFields (odOf ((configMeta parent).2 ++ sortFields attrs))
          = lastOccs (flatBodies parent ++ attrs) := by
        rw [hsrt]
        have : odOf ((configMeta parent).2 ++ attrs)
            = odOf (flatBodies parent ++ attrs) := ihz attrs
        rw [this]
        exact sortFields_odOf_eq_lastOccs hidx
      rw [hsnd, hsd, List.append_assoc]
      rw [ihz (lastOccs (flatBodies parent ++ attrs) ++ z)]
      rw [← List.append_assoc]
      have habs := odOf_congr_append
        (odOf_prefix_lastOccs (P := flatBodies parent) (b := attrs) hbo.2) z
      rw [habs]
      have : flatBodies (PyClass.derive parent attrs)
          = flatBodies parent ++ attrs := rfl
      rw [this, List.append_assoc]

/-- C3: for every well-formed schema chain (strictly increasing creation
indices, unique names per class body) built by the config metaclass, the
declared-fields registry equals the specification's ordered-map
insert-or-update over all declarations, most-base class first: ancestor
fields in their original declaration order, then fields newly declared on
the most-derived class in creation order, with a re-declared name keeping
the ancestor's position while mapping to the subclass's Field object. -/
theorem registry_order_and_override (c : PyClass) (hwf : wellformed c) :
    declaredFields c = registrySpec c :=
  (configMeta_spec c hwf).1

/-- Base-class field `x` (creation index 0) for the C3 witness. -/
def c3_fx0 : Field :=
  { kind := FieldKind.constant
    value := PyVal.int 1
    dont_dump := false
    printable := true
    creation_index := 0
    config_object := Option.none
    getter_method := Option.none
    validate_method := fun _ => Option.none }

/-- Base-class field `y` (creation index 1) for the C3 witness. -/
def c3_fy : Field := { c3_fx0 with creation_index := 1 }

/-- Subclass override of `x` (creation index 2) for the C3 witness. -/
def c3_fx2 : Field := { c3_fx0 with value := PyVal.int 2, creation_index := 2 }

/-- Subclass field `z` (creation index 3) for the C3 witness. -/
def c3_fz : Field := { c3_fx0 with creation_index := 3 }

/-- Witness chain: class A declares `x`, `y`; subclass B re-declares `x`
and adds `z`. -/
def c3_chain : PyClass :=
  PyClass.derive (PyClass.base [("x", c3_fx0), ("y", c3_fy)])
    [("x", c3_fx2), ("z", c3_fz)]

/-- Witness for C3: on the concrete chain the registry follows the spec
order — `x` keeps the ancestor position but maps to the subclass field,
`y` keeps its position, `z` is appended. -/
theorem registry_order_and_override_witness :
    declaredFields c3_chain = registrySpec c3_chain
    ∧ declaredFields c3_chain = [("x", c3_fx2), ("y", c3_fy), ("z", c3_fz)] := by
  constructor
  · apply registry_order_and_override
    constructor
    · show List.Pairwise idxStrictLt
        [("x", c3_fx0), ("y", c3_fy), ("x", c3_fx2), ("z", c3_fz)]
      unfold idxStrictLt c3_fx0 c3_fy c3_fx2 c3_fz
      simp [List.pairwise_cons]
    · show ((keys [("x", c3_fx0), ("y", c3_fy)]).Nodup
        ∧ (keys [("x", c3_fx2), ("z", c3_fz)]).Nodup)
      constructor
      · show (["x", "y"] : List String).Nodup
        decide
      · show (["x", "z"] : List String).Nodup
        decide
  · rfl

end ConfigLib
